import Mathlib

/-! Verification of the chunking and orchestration core of the md-translator
repository: MarkdownTranslator (translate_md.py), the transcript-to-article
pipeline generate_notes (extract_videosub.py) and LLMClient (llm_client.py).

Modeling conventions: Python strings are Lean String (a structure over
List Char in this toolchain), Python ints are Nat, Python floats carrying
timestamps and costs are exact rationals. A remote completion call is a
function returning Option: some (text, usage) on success, none when the
client catches an exception and returns its null fallback. All functions
are executable and structurally recursive so that concrete runs reduce
inside the kernel. -/

namespace MdT

/-- Helper for the leftmost-split scanner: prepend a character to the first
group of a split result. -/
def consHead (x : Char) : List (List Char) → List (List Char)
  | [] => [[x]]
  | g :: gs => (x :: g) :: gs

/-- Python str.split(sep) for a nonempty separator c :: cs, at the character
level: scan left to right, cutting at each leftmost non-overlapping
occurrence of the separator.  The Nat argument is fuel; every caller passes
fuel ≥ length of the list, which makes the fuel branch unreachable, and the
recursion structural. -/
def splitOnFuel (c : Char) (cs : List Char) : Nat → List Char → List (List Char)
  | _, [] => [[]]
  | 0, l => [l]
  | fuel + 1, x :: xs =>
    if (c :: cs).isPrefixOf (x :: xs) then
      [] :: splitOnFuel c cs fuel ((x :: xs).drop (c :: cs).length)
    else
      consHead x (splitOnFuel c cs fuel xs)

/-- Python sep.join at the character level. -/
def joinSepC (sep : List Char) : List (List Char) → List Char
  | [] => []
  | [g] => g
  | g :: gs => g ++ sep ++ joinSepC sep gs

/-- Python s.split(sep) on strings (sep nonempty in every use site; the code
would raise on an empty separator, which never occurs). -/
def pySplit (sep : String) (s : String) : List String :=
  match sep.data with
  | [] => [s]
  | c :: cs => (splitOnFuel c cs s.data.length s.data).map String.mk

/-- Python sep.join(xs) on strings. -/
def joinStr (sep : String) (xs : List String) : String :=
  String.mk (joinSepC sep.data (xs.map String.data))

def nlStr : String := "\n"

def ppStr : String := "\n\n"

def arrowStr : String := " --> "

def colonStr : String := ":"

def dotStr : String := "."

/-- The empty document (also the empty line). -/
def emptyDoc : String := ""

/-- content.split('\n'), as used throughout both pipelines. -/
def pyLines (s : String) : List String := pySplit nlStr s

/-- Python newline join of a list of lines. -/
def joinNl : List String → String := joinStr nlStr

/-- Python blank-line join of a list of paragraphs. -/
def joinPP : List String → String := joinStr ppStr

/-- Python substring containment (sub in s) at the character level. -/
def hasSubC (sep : List Char) : List Char → Bool
  | [] => sep.isEmpty
  | x :: xs => sep.isPrefixOf (x :: xs) || hasSubC sep xs

/-- Python substring containment on strings. -/
def hasSubStr (sep s : String) : Bool := hasSubC sep.data s.data

/-- Python str.strip() whitespace test.  The inputs of this repository are
ASCII-framed subtitle and markdown text; the model uses the ASCII whitespace
characters Python strips there. -/
def isPySpace (ch : Char) : Bool :=
  ch = ' ' || ch = '\t' || ch = '\n' || ch = '\r' || ch = '\x0b' || ch = '\x0c'

/-- Python line.strip(). -/
def pyStrip (s : String) : String :=
  String.mk (((s.data.dropWhile isPySpace).reverse.dropWhile isPySpace).reverse)

/-- Python s.isdigit(): nonempty and every character a digit (the model uses
decimal digits; the subtitle index lines this guards are decimal). -/
def pyIsDigit (s : String) : Bool :=
  !s.data.isEmpty && s.data.all Char.isDigit

/-- A segmenter chunk: (heading level or none, chunk text, original position),
the tuple built by MarkdownTranslator.split_markdown. -/
structure Chunk where
  level : Option Nat
  text : String
  pos : Nat
deriving DecidableEq, Repr

/-- re.match(r'^(#{1,3})\s+(.+)$', line) for a line that contains no newline
(every call site feeds lines of content.split('\n')): one to three leading
hash marks, then at least one whitespace character, then at least one further
character — the trailing `.+` may itself match whitespace, so a line such as
"##  " (hashes, space, space) is a heading. -/
def headerLevel (line : String) : Option Nat :=
  let n := (line.data.takeWhile (fun ch => ch = '#')).length
  match line.data.dropWhile (fun ch => ch = '#') with
  | w :: _ :: _ => if 1 ≤ n ∧ n ≤ 3 ∧ isPySpace w then some n else none
  | _ => none

/-- Heading-phase loop of MarkdownTranslator.split_markdown: i is the
enumerate index, cur the currently open chunk's lines, lvl and pos its
heading level and starting line index. -/
def splitHeadingsAux : List String → Nat → List String → Option Nat → Nat → List Chunk
  | [], _, cur, lvl, pos => if cur.isEmpty then [] else [⟨lvl, joinNl cur, pos⟩]
  | line :: rest, i, cur, lvl, pos =>
    match headerLevel line with
    | some n =>
      (if cur.isEmpty then [] else [⟨lvl, joinNl cur, pos⟩])
        ++ splitHeadingsAux rest (i + 1) [line] (some n) i
    | none => splitHeadingsAux rest (i + 1) (cur ++ [line]) lvl pos

/-- Heading phase of MarkdownTranslator.split_markdown. -/
def splitHeadings (content : String) : List Chunk :=
  splitHeadingsAux (pyLines content) 0 [] none 0

/-- Greedy paragraph-packing loop of MarkdownTranslator._split_large_chunk:
size is the code's current_size, the running sum of paragraph lengths (the
'\n\n' separators restored by join are not counted by the code). -/
def packParasAux (maxSize : Nat) : List String → List String → Nat → List String
  | [], cur, _ => if cur.isEmpty then [] else [joinPP cur]
  | p :: ps, cur, size =>
    if size + p.length > maxSize then
      (if cur.isEmpty then [] else [joinPP cur]) ++ packParasAux maxSize ps [p] p.length
    else
      packParasAux maxSize ps (cur ++ [p]) (size + p.length)

/-- MarkdownTranslator._split_large_chunk. -/
def splitLargeChunk (maxSize : Nat) (content : String) : List String :=
  packParasAux maxSize (pySplit ppStr content) [] 0

/-- Proof companion of packParasAux that returns the packed paragraph groups
before joining; packParasAux is its image under joinPP. -/
def packGroups (maxSize : Nat) : List String → List String → Nat → List (List String)
  | [], cur, _ => if cur.isEmpty then [] else [cur]
  | p :: ps, cur, size =>
    if size + p.length > maxSize then
      (if cur.isEmpty then [] else [cur]) ++ packGroups maxSize ps [p] p.length
    else
      packGroups maxSize ps (cur ++ [p]) (size + p.length)

/-- Size post-processing step of split_markdown for one heading chunk: an
oversized chunk is replaced by its paragraph sub-chunks, the k-th sub-chunk
receiving original position pos + k (enumerate over the sub-chunks). -/
def expandChunk (maxSize : Nat) (c : Chunk) : List Chunk :=
  if c.text.length > maxSize then
    ((splitLargeChunk maxSize c.text).enum).map
      (fun pr => ⟨c.level, pr.2, c.pos + pr.1⟩)
  else [c]

/-- MarkdownTranslator.split_markdown: heading phase followed by size-based
sub-splitting of oversized chunks. -/
def splitMarkdown (maxSize : Nat) (content : String) : List Chunk :=
  (splitHeadings content).flatMap (expandChunk maxSize)

/-- Stable insertion step for sorting by original position: an element is
placed before the first strictly larger key, i.e. after all equal keys. -/
def insertByPos (c : Chunk) : List Chunk → List Chunk
  | [] => [c]
  | d :: ds => if c.pos ≤ d.pos then c :: d :: ds else d :: insertByPos c ds

/-- Model of Python sorted(chunks, key=lambda x: x[2]): a stable sort by
original position (stable sorts are uniquely determined by their output, so
any stable model agrees with Timsort). -/
def sortByPos : List Chunk → List Chunk
  | [] => []
  | c :: cs => insertByPos c (sortByPos cs)

/-- MarkdownTranslator.translate_chunk with the remote call abstracted:
on failure (the except branch) the original content is returned with zero
token usage. -/
def translateChunk (transform : String → Option (String × Nat × Nat))
    (content : String) : String × Nat × Nat :=
  match transform content with
  | some r => r
  | none => (content, 0, 0)

/-- Pure core of MarkdownTranslator.translate_file: split, iterate over the
chunks sorted by original position, translate each chunk, fold the token
counts, join the translated texts with a single newline.  Returns the final
content together with (total prompt tokens, total completion tokens). -/
def translateFile (maxSize : Nat) (transform : String → Option (String × Nat × Nat))
    (content : String) : String × Nat × Nat :=
  let chunks := sortByPos (splitMarkdown maxSize content)
  let acc := chunks.foldl
    (fun acc c =>
      let tr := translateChunk transform c.text
      (acc.1 ++ [tr.1], acc.2.1 + tr.2.1, acc.2.2 + tr.2.2))
    ([], 0, 0)
  (joinNl acc.1, acc.2.1, acc.2.2)

/-- Bit length of a natural number, fuel-based so it unfolds by iota
(0 has bit length 0; the fuel n always suffices since n halves each step). -/
def bitsFuel : Nat → Nat → Nat
  | 0, _ => 0
  | fuel + 1, n => if n = 0 then 0 else bitsFuel fuel (n / 2) + 1

/-- Number of binary digits of n. -/
def bitLen (n : Nat) : Nat := bitsFuel n n

/-- Round the positive value A * 2 ^ e to the nearest IEEE-754 binary64
value, half to even: 53-bit significands, subnormal quantum 2 ^ (-1074).
The result is canonical: significand in [2 ^ 52, 2 ^ 53) or exponent
-1074.  Overflow to infinity is not modeled (the exponent is unbounded
above); the costs this development applies it to are tiny. -/
def roundPos (A : Nat) (e : Int) : Nat × Int :=
  let bits : Int := (bitLen A : Int)
  let t : Int := max (e + bits - 53) (-1074)
  if t ≤ e then
    let k := (min (e + 1074) (53 - bits)).toNat
    (A * 2 ^ k, e - (k : Int))
  else
    let k := (t - e).toNat
    let q := A / 2 ^ k
    let r := A % 2 ^ k
    let h := 2 ^ (k - 1)
    let q2 := if h < r ∨ (r = h ∧ q % 2 = 1) then q + 1 else q
    if q2 = 0 then (0, 0) else if q2 = 2 ^ 53 then (2 ^ 52, t + 1) else (q2, t)

/-- A finite IEEE-754 binary64 value (a Python float) written exactly:
the real number m * 2 ^ e.  Zero is ⟨0, 0⟩. -/
structure F64 where
  m : Int
  e : Int
deriving DecidableEq, Repr

/-- Correctly rounded conversion of M * 2 ^ e to binary64 (sign-symmetric,
as IEEE round-to-nearest is). -/
def roundF64 (M : Int) (e : Int) : F64 :=
  if M = 0 then ⟨0, 0⟩
  else if 0 < M then
    ⟨((roundPos M.toNat e).1 : Int), (roundPos M.toNat e).2⟩
  else
    ⟨-((roundPos (-M).toNat e).1 : Int), (roundPos (-M).toNat e).2⟩

/-- IEEE-754 binary64 addition, which is what Python's float + performs:
align both summands to the smaller exponent, add the integer significands
exactly, round the result to nearest, ties to even. -/
def addF64 (a b : F64) : F64 :=
  roundF64 (a.m * 2 ^ (a.e - min a.e b.e).toNat + b.m * 2 ^ (b.e - min a.e b.e).toNat)
    (min a.e b.e)

/-- The usage_stats record built by LLMClient.generate_completion and
accumulated by generate_notes; token counts are naturals, the three costs
are Python floats, modeled as exact binary64 values. -/
structure UsageStats where
  prompt_tokens : Nat
  completion_tokens : Nat
  prompt_cost : F64
  completion_cost : F64
  total_cost : F64
deriving DecidableEq, Repr

/-- The zero-valued total_stats initializer of generate_notes
(cost fields start at the float 0.0). -/
def zeroStats : UsageStats := ⟨0, 0, ⟨0, 0⟩, ⟨0, 0⟩, ⟨0, 0⟩⟩

/-- generate_notes: for key in total_stats: total_stats[key] += usage_stats[key]
— field-wise addition of the five fields, no normalization; on the three
cost fields, + is float addition. -/
def mergeStats (a b : UsageStats) : UsageStats :=
  ⟨a.prompt_tokens + b.prompt_tokens, a.completion_tokens + b.completion_tokens,
   addF64 a.prompt_cost b.prompt_cost, addF64 a.completion_cost b.completion_cost,
   addF64 a.total_cost b.total_cost⟩

/-- Python int(s) on the decimal strings produced by the timestamp format
(leading zeros allowed).  The code would raise ValueError on non-digit input;
this total model is only applied to digit strings by well-formed transcripts. -/
def digitsVal (l : List Char) : Nat :=
  l.foldl (fun acc ch => acc * 10 + (ch.toNat - '0'.toNat)) 0

/-- Python float(s) for the "SS.mmm" strings arising after the code's
replace(",", "."), modeled exactly as a rational. -/
def parseFloatQ (s : String) : ℚ :=
  match pySplit dotStr s with
  | [a] => (digitsVal a.data : ℚ)
  | a :: b :: _ => (digitsVal a.data : ℚ) + (digitsVal b.data : ℚ) / ((10 : ℚ) ^ b.data.length)
  | [] => 0

/-- Python seconds.replace(",", ".") — a single-character replacement. -/
def pyReplaceComma (s : String) : String :=
  String.mk (s.data.map (fun ch => if ch = ',' then '.' else ch))

/-- Timestamp parsing of generate_notes: hours, minutes, seconds =
time_str.split(":"); int(hours)*3600 + int(minutes)*60 +
float(seconds.replace(",", ".")). -/
def parseTimeQ (timeStr : String) : ℚ :=
  let parts := pySplit colonStr timeStr
  (digitsVal (parts.getD 0 "").data : ℚ) * 3600
    + (digitsVal (parts.getD 1 "").data : ℚ) * 60
    + parseFloatQ (pyReplaceComma (parts.getD 2 ""))

/-- One line of the duration loop of generate_notes: a " --> " line
contributes its end timestamp to the running maximum. -/
def durStep (acc : ℚ) (line : String) : ℚ :=
  if hasSubStr arrowStr line then
    max acc (parseTimeQ ((pySplit arrowStr line).getD 1 ""))
  else acc

/-- First loop of generate_notes: total video duration as the maximum of the
end timestamps of all " --> " lines. -/
def totalDuration (content : String) : ℚ :=
  (pyLines content).foldl durStep 0

/-- The filter both branches of generate_notes apply to non-timing lines:
line.strip() truthy and line.strip().isdigit() false. -/
def keepLine (line : String) : Bool :=
  !(pyStrip line).data.isEmpty && !pyIsDigit (pyStrip line)

/-- Short branch of generate_notes (duration below 3600 s): one segment made
of every line that is non-blank, not all digits and not a timing line. -/
def shortSegments (content : String) : List String :=
  [joinNl ((pyLines content).filter
    (fun line => keepLine line && !hasSubStr arrowStr line))]

/-- State of the 60-minute windowing loop of generate_notes: closed segments,
current segment lines, current window start time. -/
structure WinState where
  segs : List String
  cur : List String
  time : ℚ

/-- One line of the windowing loop: a timing line opens a new window when its
start time (total_seconds in the code, written out here instead of let-bound)
exceeds the current window start by more than 3600 s; any other line passing
the filter is appended to the current window. -/
def windowStep (st : WinState) (line : String) : WinState :=
  if hasSubStr arrowStr line then
    if parseTimeQ ((pySplit arrowStr line).getD 0 "") - st.time > 3600 then
      ⟨st.segs ++ (if st.cur.isEmpty then [] else [joinNl st.cur]), [],
        parseTimeQ ((pySplit arrowStr line).getD 0 "")⟩
    else st
  else if keepLine line then ⟨st.segs, st.cur ++ [line], st.time⟩
  else st

/-- Long branch of generate_notes: fold the windowing loop over all lines and
close the last window. -/
def longSegments (content : String) : List String :=
  let fin := (pyLines content).foldl windowStep ⟨[], [], 0⟩
  fin.segs ++ (if fin.cur.isEmpty then [] else [joinNl fin.cur])

/-- Segment computation of generate_notes: one whole-file segment when the
duration is under 60 minutes, else 60-minute windows. -/
def generateSegments (content : String) : List String :=
  if totalDuration content < 3600 then shortSegments content else longSegments content

/-- The polishing prompt prefix of generate_notes (the segment is appended). -/
def notePromptPrefix : String :=
  "请将以下视频字幕内容润色为一段流畅的笔记文章。在润色过程中：\n1. 修正可能的错别字和语法错误\n2. 调整语序使内容更加连贯\n3. 保持专业术语的准确性\n4. 添加适当的段落划分\n5. 确保文章结构清晰\n\n原始字幕内容：\n"

/-- The polishing prompt for one window. -/
def notePrompt (segment : String) : String := notePromptPrefix ++ segment

/-- The section header f-string of generate_notes for the i-th window
(0-based i, printed 1-based). -/
def sectionHeaderOf (i : Nat) : String := "## 第" ++ toString (i + 1) ++ "部分\n\n"

/-- Polishing loop of generate_notes.  gen models
LLMClient.generate_completion on the prompt: some (text, usage) on success,
none when the client catches the service error and returns (None, None).
The code's guard `if note_section and usage_stats` skips the window whenever
the call failed (or returned empty text); the usage dict, when present,
always has five keys and is truthy.  The except branch of generate_notes is
unreachable for service errors because generate_completion catches them. -/
def polishLoop (gen : String → Option (String × UsageStats)) (segments : List String) :
    List String × UsageStats :=
  segments.enum.foldl
    (fun acc pr =>
      match gen (notePrompt pr.2) with
      | some r =>
        if r.1.data.isEmpty then acc
        else (acc.1 ++ [sectionHeaderOf pr.1 ++ r.1], mergeStats acc.2 r.2)
      | none => acc)
    ([], zeroStats)

/-- Two-digit zero padding, as in format_timestamp's f"{n:02d}". -/
def pad2 (n : Nat) : String := if n < 10 then "0" ++ toString n else toString n

/-- format_timestamp of extract_videosub.py for a whole number of seconds
(milliseconds 000). -/
def fmtTS (s : Nat) : String :=
  pad2 (s / 3600) ++ ":" ++ pad2 (s % 3600 / 60) ++ ":" ++ pad2 (s % 60) ++ ",000"

/-- One srt entry as written by generate_subtitle:
f"{i}\n{start} --> {end}\n{text}\n\n". -/
def srtEntry (idx startSec endSec : Nat) (text : String) : String :=
  toString idx ++ nlStr ++ fmtTS startSec ++ arrowStr ++ fmtTS endSec ++ nlStr
    ++ text ++ ppStr

/-- The text line of the i-th test entry (never blank, never all digits). -/
def entryText (i : Nat) : String := "t" ++ toString i

/-- A 90-minute transcript with one entry every 5 seconds: entries i = 0..1079
covering [5i, 5i+5) seconds, 1080 entries, last end time 5400 s. -/
def transcript90 : String :=
  String.join ((List.range 1080).map
    (fun i => srtEntry (i + 1) (5 * i) (5 * i + 5) (entryText i)))

/-- The lines of the i-th entry of the test transcript, as they come out of
content.split('\n'): index line, timing line, text line, blank line. -/
def entryLines (i : Nat) : List String :=
  [toString (i + 1), fmtTS (5 * i) ++ arrowStr ++ fmtTS (5 * i + 5), entryText i, emptyDoc]

/-- The full line list of transcript90 (the final "\n\n" leaves one trailing
empty line after splitting). -/
def transcriptLines : List String := (List.range 1080).flatMap entryLines ++ [emptyDoc]

/-- Number of '\n'-lines of a string (used by the spacing invariants). -/
def lineCount (s : String) : Nat := (pyLines s).length

/-- Sum of the character lengths of a list of paragraphs (the quantity the
greedy packer actually bounds). -/
def paraLenSum (g : List String) : Nat := (g.map String.length).sum

/-- Strict ordering of chunks by original position. -/
def posLt (a b : Chunk) : Prop := a.pos < b.pos

/-- A chunk is spaced before another when the second starts at or after the
line-count end of the first. -/
def spacedChunks (a b : Chunk) : Prop := a.pos + lineCount a.text ≤ b.pos

instance : IsTrans Chunk posLt :=
  ⟨fun _ _ _ h1 h2 => Nat.lt_trans h1 h2⟩

instance : IsTrans Chunk spacedChunks :=
  ⟨fun _ _ _ h1 h2 => le_trans (le_trans h1 (Nat.le_add_right _ _)) h2⟩

/-- A line is free of pure-digit content: its stripped text is not a nonempty
all-decimal-digit string (the condition under which generate_notes keeps a
line for polishing, restricted to the digit clause). -/
def stripNotDigits (line : String) : Prop :=
  ¬((pyStrip line).data ≠ [] ∧ (pyStrip line).data.all Char.isDigit = true)

instance (line : String) : Decidable (stripNotDigits line) := by
  unfold stripNotDigits
  infer_instance

/-- A two-paragraph heading-free document for the position counterexample. -/
def docAB : String := "a\n\nb"

/-- A two-paragraph heading-free document for the size counterexample. -/
def docABCD : String := "ab\n\ncd"

/-- A plain one-line document for the digit-exclusion witness. -/
def docW10 : String := "hello"

/-- The document of the spec's two-chunk segmentation scenario. -/
def docC6 : String := "# Title\n\nHello world.\n\n## Sub\n\nMore text."

/-- A three-heading document whose three chunks drive the failure scenarios. -/
def doc3 : String := "# A\nx\n# B\ny\n# C\nz"

/-- A transform failing exactly on the middle chunk of doc3. -/
def tf3 : String → Option (String × Nat × Nat) := fun s =>
  if s = "# B\ny" then none
  else if s = "# A\nx" then some ("TA", 3, 5)
  else some ("TC", 7, 11)

/-- Windows for the three-window polishing failure scenario. -/
def segA : String := "A"

def segB : String := "B"

def segC : String := "C"

/-- The polished text of the first window in the failure scenario. -/
def polA : String := "pA"

/-- The polished text of the third window in the failure scenario. -/
def polC : String := "pC"

/-- The usage of the first window in the failure scenario (costs are the
small integers 3.0, 4.0, 7.0, exactly representable floats). -/
def usageA : UsageStats := ⟨1, 2, ⟨3, 0⟩, ⟨4, 0⟩, ⟨7, 0⟩⟩

/-- The usage of the third window in the failure scenario. -/
def usageC : UsageStats := ⟨10, 20, ⟨30, 0⟩, ⟨40, 0⟩, ⟨70, 0⟩⟩

/-- The float 0.1: the binary64 value nearest to 1/10. -/
def fTenth : F64 := ⟨7205759403792794, -56⟩

/-- The float 0.2: the binary64 value nearest to 1/5. -/
def fFifth : F64 := ⟨7205759403792794, -55⟩

/-- The float 0.3: the binary64 value nearest to 3/10. -/
def fThreeTenths : F64 := ⟨5404319552844595, -54⟩

/-- A usage record all of whose costs are the float 0.1. -/
def statTenth : UsageStats := ⟨0, 0, fTenth, fTenth, fTenth⟩

/-- A usage record all of whose costs are the float 0.2. -/
def statFifth : UsageStats := ⟨0, 0, fFifth, fFifth, fFifth⟩

/-- A usage record all of whose costs are the float 0.3. -/
def statThreeTenths : UsageStats := ⟨0, 0, fThreeTenths, fThreeTenths, fThreeTenths⟩

/-- A completion model failing exactly on the middle window. -/
def genMid : String → Option (String × UsageStats) := fun p =>
  if p = notePrompt segB then none
  else if p = notePrompt segA then some (polA, usageA)
  else some (polC, usageC)

/-! ### Properties of the split and join scanners -/

theorem splitOnFuel_nil (c : Char) (cs : List Char) (fuel : Nat) :
    splitOnFuel c cs fuel [] = [[]] := by
  cases fuel <;> rfl

theorem splitOnFuel_zero (c : Char) (cs : List Char) (x : Char) (xs : List Char) :
    splitOnFuel c cs 0 (x :: xs) = [x :: xs] := rfl

theorem splitOnFuel_succ (c : Char) (cs : List Char) (fuel : Nat) (x : Char) (xs : List Char) :
    splitOnFuel c cs (fuel + 1) (x :: xs) =
      if (c :: cs).isPrefixOf (x :: xs) then
        [] :: splitOnFuel c cs fuel ((x :: xs).drop (c :: cs).length)
      else consHead x (splitOnFuel c cs fuel xs) := rfl

theorem consHead_ne_nil (x : Char) (gs : List (List Char)) : consHead x gs ≠ [] := by
  cases gs <;> simp [consHead]

theorem length_consHead (x : Char) (gs : List (List Char)) (h : gs ≠ []) :
    (consHead x gs).length = gs.length := by
  cases gs with
  | nil => exact absurd rfl h
  | cons g gs => simp [consHead]

theorem splitOnFuel_ne_nil (c : Char) (cs : List Char) :
    ∀ (fuel : Nat) (l : List Char), splitOnFuel c cs fuel l ≠ [] := by
  intro fuel
  induction fuel with
  | zero =>
    intro l
    cases l with
    | nil => simp [splitOnFuel_nil]
    | cons x xs => simp [splitOnFuel_zero]
  | succ n ih =>
    intro l
    cases l with
    | nil => simp [splitOnFuel_nil]
    | cons x xs =>
      rw [splitOnFuel_succ]
      split
      · simp
      · exact consHead_ne_nil _ _

theorem splitOnFuel_fuel (c : Char) (cs : List Char) :
    ∀ (f1 f2 : Nat) (l : List Char), l.length ≤ f1 → l.length ≤ f2 →
      splitOnFuel c cs f1 l = splitOnFuel c cs f2 l := by
  intro f1
  induction f1 with
  | zero =>
    intro f2 l h1 _
    have hl : l = [] := List.eq_nil_of_length_eq_zero (Nat.le_zero.mp h1)
    subst hl
    simp [splitOnFuel_nil]
  | succ n ih =>
    intro f2 l h1 h2
    cases l with
    | nil => simp [splitOnFuel_nil]
    | cons x xs =>
      cases f2 with
      | zero => simp at h2
      | succ m =>
        rw [splitOnFuel_succ, splitOnFuel_succ]
        by_cases hp : (c :: cs).isPrefixOf (x :: xs)
        · rw [if_pos hp, if_pos hp]
          have hlen : ((x :: xs).drop (c :: cs).length).length ≤ n ∧
              ((x :: xs).drop (c :: cs).length).length ≤ m := by
            simp only [List.length_drop, List.length_cons]
            simp only [List.length_cons] at h1 h2
            omega
          rw [ih m _ hlen.1 hlen.2]
        · rw [if_neg hp, if_neg hp]
          have hx1 : xs.length ≤ n := by simp at h1; omega
          have hx2 : xs.length ≤ m := by simp at h2; omega
          rw [ih m xs hx1 hx2]

theorem joinSepC_pair (sep : List Char) (g1 g2 : List Char) (gs : List (List Char)) :
    joinSepC sep (g1 :: g2 :: gs) = g1 ++ sep ++ joinSepC sep (g2 :: gs) := rfl

theorem joinSepC_cons_ne (sep : List Char) (g : List Char) (gs : List (List Char))
    (h : gs ≠ []) : joinSepC sep (g :: gs) = g ++ sep ++ joinSepC sep gs := by
  cases gs with
  | nil => exact absurd rfl h
  | cons g2 gs => rfl

theorem joinSepC_consHead (sep : List Char) (x : Char) (gs : List (List Char))
    (h : gs ≠ []) : joinSepC sep (consHead x gs) = x :: joinSepC sep gs := by
  cases gs with
  | nil => exact absurd rfl h
  | cons g gs =>
    cases gs with
    | nil => rfl
    | cons g2 gs2 => rfl

theorem joinSepC_splitOnFuel (c : Char) (cs : List Char) :
    ∀ (fuel : Nat) (l : List Char), l.length ≤ fuel →
      joinSepC (c :: cs) (splitOnFuel c cs fuel l) = l := by
  intro fuel
  induction fuel with
  | zero =>
    intro l h
    have hl : l = [] := List.eq_nil_of_length_eq_zero (Nat.le_zero.mp h)
    subst hl
    rfl
  | succ n ih =>
    intro l h
    cases l with
    | nil => rw [splitOnFuel_nil]; rfl
    | cons x xs =>
      rw [splitOnFuel_succ]
      by_cases hp : (c :: cs).isPrefixOf (x :: xs)
      · rw [if_pos hp]
        obtain ⟨t, ht⟩ := List.isPrefixOf_iff_prefix.mp hp
        have hdrop : (x :: xs).drop (c :: cs).length = t := by
          rw [← ht]; exact List.drop_left _ _
        have hlent : t.length ≤ n := by
          have hlen2 := congrArg List.length ht
          simp only [List.length_append, List.length_cons] at hlen2
          simp only [List.length_cons] at h
          omega
        rw [hdrop, joinSepC_cons_ne _ _ _ (splitOnFuel_ne_nil c cs n t), ih t hlent,
          List.nil_append, ht]
      · rw [if_neg hp,
          joinSepC_consHead _ _ _ (splitOnFuel_ne_nil c cs n xs),
          ih xs (by simp at h; omega)]

theorem splitOnFuel_of_not_mem (c : Char) (cs : List Char) :
    ∀ (fuel : Nat) (l : List Char), l.length ≤ fuel → c ∉ l →
      splitOnFuel c cs fuel l = [l] := by
  intro fuel
  induction fuel with
  | zero =>
    intro l h _
    have hl : l = [] := List.eq_nil_of_length_eq_zero (Nat.le_zero.mp h)
    subst hl
    rfl
  | succ n ih =>
    intro l h hc
    cases l with
    | nil => exact splitOnFuel_nil c cs _
    | cons x xs =>
      have hx : ¬(c :: cs).isPrefixOf (x :: xs) := by
        intro hp
        obtain ⟨t, ht⟩ := List.isPrefixOf_iff_prefix.mp hp
        have : x = c := by
          have := congrArg (fun l => l.head?) ht
          simpa using this.symm
        exact hc (this ▸ List.mem_cons_self x xs)
      rw [splitOnFuel_succ, if_neg hx,
        ih xs (by simp at h; omega) (fun hm => hc (List.mem_cons_of_mem _ hm))]
      rfl

theorem splitOnFuel_append_sep (c : Char) (cs : List Char) :
    ∀ (a t : List Char) (fuel : Nat), (a ++ (c :: cs) ++ t).length ≤ fuel → c ∉ a →
      splitOnFuel c cs fuel (a ++ (c :: cs) ++ t) =
        a :: splitOnFuel c cs t.length t := by
  intro a
  induction a with
  | nil =>
    intro t fuel h _
    cases fuel with
    | zero => simp at h
    | succ m =>
      rw [List.nil_append]
      have hshape : (c :: cs) ++ t = c :: (cs ++ t) := rfl
      rw [hshape, splitOnFuel_succ, ← hshape,
        if_pos (List.isPrefixOf_iff_prefix.mpr (List.prefix_append _ _)),
        List.drop_left]
      have hm : t.length ≤ m := by
        simp at h
        omega
      rw [splitOnFuel_fuel c cs m t.length t hm (le_refl _)]
  | cons x a' ih =>
    intro t fuel h hc
    cases fuel with
    | zero => simp at h
    | succ m =>
      have hx : c ≠ x := fun he => hc (he ▸ List.mem_cons_self x a')
      have hshape : (x :: a') ++ (c :: cs) ++ t = x :: (a' ++ (c :: cs) ++ t) := by
        simp
      rw [hshape, splitOnFuel_succ]
      have hp : ¬(c :: cs).isPrefixOf (x :: (a' ++ (c :: cs) ++ t)) := by
        intro hp
        obtain ⟨u, hu⟩ := List.isPrefixOf_iff_prefix.mp hp
        have : c = x := by
          have := congrArg (fun l => l.head?) hu
          simpa using this
        exact hx this
      rw [if_neg hp,
        ih t m (by simp at h ⊢; omega) (fun hm => hc (List.mem_cons_of_mem _ hm)),
        consHead]

theorem splitOnFuel_joinSepC (c : Char) (cs : List Char) :
    ∀ (gs : List (List Char)) (fuel : Nat), gs ≠ [] → (∀ g ∈ gs, c ∉ g) →
      (joinSepC (c :: cs) gs).length ≤ fuel →
      splitOnFuel c cs fuel (joinSepC (c :: cs) gs) = gs := by
  intro gs
  induction gs with
  | nil => intro fuel h; exact absurd rfl h
  | cons g gs ih =>
    intro fuel _ hmem hlen
    cases gs with
    | nil =>
      exact splitOnFuel_of_not_mem c cs fuel g hlen (hmem g (List.mem_cons_self _ _))
    | cons g2 gs2 =>
      rw [joinSepC_pair] at hlen ⊢
      rw [splitOnFuel_append_sep c cs g _ fuel hlen (hmem g (List.mem_cons_self _ _))]
      rw [ih _ (by simp) (fun g hg => hmem g (List.mem_cons_of_mem _ hg)) (le_refl _)]

theorem not_mem_of_mem_splitOnFuel_single (c : Char) :
    ∀ (fuel : Nat) (l : List Char), l.length ≤ fuel →
      ∀ g ∈ splitOnFuel c [] fuel l, c ∉ g := by
  intro fuel
  induction fuel with
  | zero =>
    intro l h g hg
    have hl : l = [] := List.eq_nil_of_length_eq_zero (Nat.le_zero.mp h)
    subst hl
    rw [splitOnFuel_nil] at hg
    simp at hg
    simp [hg]
  | succ n ih =>
    intro l h g hg
    cases l with
    | nil =>
      rw [splitOnFuel_nil] at hg
      simp at hg
      simp [hg]
    | cons x xs =>
      rw [splitOnFuel_succ] at hg
      have hxs : xs.length ≤ n := by simp at h; omega
      by_cases hp : ([c] : List Char).isPrefixOf (x :: xs)
      · rw [if_pos hp] at hg
        simp only [List.length_cons, List.length_nil, List.drop_succ_cons,
          List.drop_zero] at hg
        rcases List.mem_cons.mp hg with rfl | hg2
        · simp
        · exact ih xs hxs g hg2
      · rw [if_neg hp] at hg
        have hx : c ≠ x := by
          intro he
          exact hp (by simp [List.isPrefixOf, he])
        cases hs : splitOnFuel c [] n xs with
        | nil => exact absurd hs (splitOnFuel_ne_nil c [] n xs)
        | cons g1 grest =>
          rw [hs, consHead] at hg
          rcases List.mem_cons.mp hg with rfl | hg2
          · intro hmem
            rcases List.mem_cons.mp hmem with he | hmem2
            · exact hx he
            · exact ih xs hxs g1 (hs ▸ List.mem_cons_self _ _) hmem2
          · exact ih xs hxs g (hs ▸ List.mem_cons_of_mem _ hg2)

theorem splitOnFuel_two_le_single (c : Char) :
    ∀ (fuel : Nat) (l : List Char), l.length ≤ fuel →
      (splitOnFuel c [c] fuel l).length ≤ (splitOnFuel c [] fuel l).length := by
  intro fuel
  induction fuel with
  | zero =>
    intro l h
    have hl : l = [] := List.eq_nil_of_length_eq_zero (Nat.le_zero.mp h)
    subst hl
    simp [splitOnFuel_nil]
  | succ n ih =>
    intro l h
    cases l with
    | nil => simp [splitOnFuel_nil]
    | cons x xs =>
      have hxs : xs.length ≤ n := by simp at h; omega
      rw [splitOnFuel_succ, splitOnFuel_succ]
      by_cases hp2 : ([c, c] : List Char).isPrefixOf (x :: xs)
      · obtain ⟨t, ht⟩ := List.isPrefixOf_iff_prefix.mp hp2
        have hx : x = c := by
          have h2 := congrArg List.head? ht
          simpa using h2.symm
        subst hx
        have hxs2 : x :: t = xs := by
          have h2 := congrArg List.tail ht
          simpa using h2
        subst hxs2
        rw [if_pos hp2]
        have hp1 : ([x] : List Char).isPrefixOf (x :: x :: t) := by
          simp [List.isPrefixOf]
        rw [if_pos hp1]
        simp only [List.length_cons, List.length_nil, List.drop_succ_cons,
          List.drop_zero, List.length_singleton]
        have hn : t.length + 1 ≤ n := by simp at h; omega
        cases n with
        | zero => omega
        | succ m =>
          rw [splitOnFuel_succ]
          have hpin : ([x] : List Char).isPrefixOf (x :: t) := by
            simp [List.isPrefixOf]
          rw [if_pos hpin]
          simp only [List.length_cons, List.length_nil, List.drop_succ_cons,
            List.drop_zero, List.length_cons]
          have h1 : (splitOnFuel x [x] (m + 1) t).length ≤
              (splitOnFuel x [] (m + 1) t).length := ih t (by omega)
          have h2 : splitOnFuel x [] (m + 1) t = splitOnFuel x [] m t :=
            splitOnFuel_fuel x [] (m + 1) m t (by omega) (by omega)
          rw [h2] at h1
          simpa using Nat.le_trans h1 (Nat.le_succ _)
      · rw [if_neg hp2]
        by_cases hp1 : ([c] : List Char).isPrefixOf (x :: xs)
        · rw [if_pos hp1]
          rw [length_consHead _ _ (splitOnFuel_ne_nil c [c] n xs)]
          simp only [List.length_cons, List.length_nil, List.drop_succ_cons,
            List.drop_zero]
          exact Nat.le_trans (ih xs hxs) (by simp)
        · rw [if_neg hp1]
          rw [length_consHead _ _ (splitOnFuel_ne_nil c [c] n xs),
            length_consHead _ _ (splitOnFuel_ne_nil c [] n xs)]
          exact ih xs hxs

theorem joinSepC_append (sep : List Char) :
    ∀ (gs1 gs2 : List (List Char)), gs1 ≠ [] → gs2 ≠ [] →
      joinSepC sep (gs1 ++ gs2) = joinSepC sep gs1 ++ sep ++ joinSepC sep gs2 := by
  intro gs1
  induction gs1 with
  | nil => intro gs2 h; exact absurd rfl h
  | cons g gs1 ih =>
    intro gs2 _ h2
    cases gs1 with
    | nil =>
      rw [List.singleton_append, joinSepC_cons_ne _ _ _ h2]
      rfl
    | cons g2 gs1' =>
      rw [List.cons_append,
        joinSepC_cons_ne sep g ((g2 :: gs1') ++ gs2) (by simp),
        ih gs2 (by simp) h2, joinSepC_pair]
      simp [List.append_assoc]

/-! ### String-level corollaries -/

theorem string_data_ext (s t : String) (h : s.data = t.data) : s = t := by
  cases s
  cases t
  cases h
  rfl

theorem pyLines_eq (s : String) :
    pyLines s = (splitOnFuel '\n' [] s.data.length s.data).map String.mk := rfl

theorem pySplit_pp_eq (s : String) :
    pySplit ppStr s = (splitOnFuel '\n' ['\n'] s.data.length s.data).map String.mk := rfl

theorem pySplit_arrow_eq (s : String) :
    pySplit arrowStr s =
      (splitOnFuel ' ' ['-', '-', '>', ' '] s.data.length s.data).map String.mk := rfl

theorem pySplit_colon_eq (s : String) :
    pySplit colonStr s = (splitOnFuel ':' [] s.data.length s.data).map String.mk := rfl

theorem pySplit_dot_eq (s : String) :
    pySplit dotStr s = (splitOnFuel '.' [] s.data.length s.data).map String.mk := rfl

theorem joinNl_pyLines (s : String) : joinNl (pyLines s) = s := by
  have h : (pyLines s).map String.data = splitOnFuel '\n' [] s.data.length s.data := by
    rw [pyLines_eq, List.map_map]
    simp [Function.comp_def]
  have h2 := joinSepC_splitOnFuel '\n' [] s.data.length s.data (le_refl _)
  calc joinNl (pyLines s)
      = String.mk (joinSepC ['\n'] ((pyLines s).map String.data)) := rfl
    _ = String.mk s.data := by rw [h]; exact congrArg String.mk h2
    _ = s := rfl

theorem mem_pyLines_no_nl (s : String) : ∀ x ∈ pyLines s, ('\n' : Char) ∉ x.data := by
  intro x hx
  rw [pyLines_eq] at hx
  obtain ⟨g, hg, rfl⟩ := List.mem_map.mp hx
  exact not_mem_of_mem_splitOnFuel_single '\n' s.data.length s.data (le_refl _) g hg

theorem pyLines_joinNl (xs : List String) (hne : xs ≠ [])
    (h : ∀ x ∈ xs, ('\n' : Char) ∉ x.data) : pyLines (joinNl xs) = xs := by
  have hdata : (joinNl xs).data = joinSepC ['\n'] (xs.map String.data) := rfl
  rw [pyLines_eq, hdata]
  rw [splitOnFuel_joinSepC '\n' [] (xs.map String.data) _
    (by simpa using hne)
    (by intro g hg; obtain ⟨x, hx, rfl⟩ := List.mem_map.mp hg; exact h x hx)
    (le_refl _)]
  rw [List.map_map]
  simp [Function.comp_def]

theorem joinNl_append (xs ys : List String) (h1 : xs ≠ []) (h2 : ys ≠ []) :
    joinNl (xs ++ ys) = joinNl xs ++ nlStr ++ joinNl ys := by
  apply string_data_ext
  calc (joinNl (xs ++ ys)).data
      = joinSepC ['\n'] ((xs ++ ys).map String.data) := rfl
    _ = joinSepC ['\n'] (xs.map String.data ++ ys.map String.data) := by
        rw [List.map_append]
    _ = joinSepC ['\n'] (xs.map String.data) ++ ['\n']
          ++ joinSepC ['\n'] (ys.map String.data) :=
        joinSepC_append ['\n'] _ _ (by simpa using h1) (by simpa using h2)
    _ = (joinNl xs ++ nlStr ++ joinNl ys).data := by
        simp [String.data_append]
        rfl

theorem joinNl_cons (x : String) (ys : List String) (h : ys ≠ []) :
    joinNl (x :: ys) = x ++ nlStr ++ joinNl ys := by
  apply string_data_ext
  calc (joinNl (x :: ys)).data
      = joinSepC ['\n'] (x.data :: ys.map String.data) := rfl
    _ = x.data ++ ['\n'] ++ joinSepC ['\n'] (ys.map String.data) :=
        joinSepC_cons_ne _ _ _ (by simpa using h)
    _ = (x ++ nlStr ++ joinNl ys).data := by
        simp [String.data_append]
        rfl

theorem joinNl_singleton (x : String) : joinNl [x] = x := by
  apply string_data_ext
  rfl

theorem joinNl_nil : joinNl [] = emptyDoc := rfl

theorem lineCount_pos (s : String) : 1 ≤ lineCount s := by
  unfold lineCount
  rw [pyLines_eq, List.length_map]
  cases h : splitOnFuel '\n' [] s.data.length s.data with
  | nil => exact absurd h (splitOnFuel_ne_nil _ _ _ _)
  | cons g gs => simp

theorem lineCount_joinNl (xs : List String) (hne : xs ≠ [])
    (h : ∀ x ∈ xs, ('\n' : Char) ∉ x.data) : lineCount (joinNl xs) = xs.length := by
  unfold lineCount
  rw [pyLines_joinNl xs hne h]

theorem pySplit_pp_le_lines (s : String) :
    (pySplit ppStr s).length ≤ (pyLines s).length := by
  rw [pyLines_eq, pySplit_pp_eq, List.length_map, List.length_map]
  exact splitOnFuel_two_le_single '\n' s.data.length s.data (le_refl _)

/-! ### Heading-phase invariants -/

theorem splitHeadingsAux_nil_eq (i : Nat) (cur : List String) (lvl : Option Nat)
    (pos : Nat) :
    splitHeadingsAux [] i cur lvl pos =
      if cur.isEmpty then [] else [⟨lvl, joinNl cur, pos⟩] := rfl

theorem splitHeadingsAux_cons_header (line : String) (rest : List String) (i : Nat)
    (cur : List String) (lvl : Option Nat) (pos : Nat) (n : Nat)
    (h : headerLevel line = some n) :
    splitHeadingsAux (line :: rest) i cur lvl pos =
      (if cur.isEmpty then [] else [⟨lvl, joinNl cur, pos⟩])
        ++ splitHeadingsAux rest (i + 1) [line] (some n) i := by
  rw [splitHeadingsAux.eq_2, h]

theorem splitHeadingsAux_cons_plain (line : String) (rest : List String) (i : Nat)
    (cur : List String) (lvl : Option Nat) (pos : Nat)
    (h : headerLevel line = none) :
    splitHeadingsAux (line :: rest) i cur lvl pos =
      splitHeadingsAux rest (i + 1) (cur ++ [line]) lvl pos := by
  rw [splitHeadingsAux.eq_2, h]

theorem splitHeadingsAux_ne_nil (ls : List String) :
    ∀ (i : Nat) (cur : List String) (lvl : Option Nat) (pos : Nat), cur ≠ [] →
      splitHeadingsAux ls i cur lvl pos ≠ [] := by
  induction ls with
  | nil =>
    intro i cur lvl pos h
    rw [splitHeadingsAux_nil_eq]
    simp [h]
  | cons line rest ih =>
    intro i cur lvl pos h
    cases hh : headerLevel line with
    | some n =>
      rw [splitHeadingsAux_cons_header _ _ _ _ _ _ _ hh]
      intro hc
      rcases List.append_eq_nil.mp hc with ⟨_, h2⟩
      exact ih (i + 1) [line] (some n) i (by simp) h2
    | none =>
      rw [splitHeadingsAux_cons_plain _ _ _ _ _ _ hh]
      exact ih _ _ _ _ (by simp)

theorem splitHeadingsAux_join (ls : List String) :
    ∀ (i : Nat) (cur : List String) (lvl : Option Nat) (pos : Nat),
      joinNl ((splitHeadingsAux ls i cur lvl pos).map Chunk.text) =
        if cur.isEmpty then joinNl ls else joinNl (cur ++ ls) := by
  induction ls with
  | nil =>
    intro i cur lvl pos
    rw [splitHeadingsAux_nil_eq]
    by_cases h : cur.isEmpty
    · simp [h]
    · rw [if_neg h, if_neg h]
      simp only [List.map_cons, List.map_nil]
      rw [joinNl_singleton, List.append_nil]
  | cons line rest ih =>
    intro i cur lvl pos
    cases hh : headerLevel line with
    | some n =>
      rw [splitHeadingsAux_cons_header _ _ _ _ _ _ _ hh]
      by_cases h : cur.isEmpty
      · rw [if_pos h, if_pos h, List.nil_append, ih]
        rw [if_neg (by simp)]
        simp
      · rw [if_neg h, if_neg h]
        have hcur : cur ≠ [] := fun hc => by simp [hc] at h
        have hrec := splitHeadingsAux_ne_nil rest (i + 1) [line] (some n) i (by simp)
        simp only [List.map_append, List.map_cons, List.map_nil]
        rw [joinNl_append [joinNl cur] _ (by simp) (by simpa using hrec),
          joinNl_singleton, ih, if_neg (by simp),
          joinNl_append cur (line :: rest) hcur (by simp)]
        simp
    | none =>
      rw [splitHeadingsAux_cons_plain _ _ _ _ _ _ hh, ih]
      by_cases h : cur.isEmpty
      · have hc : cur = [] := by simpa using h
        subst hc
        rw [if_neg (by simp), if_pos (by simp)]
        simp
      · rw [if_neg (by simp [h]), if_neg h, List.append_assoc]
        simp

theorem splitHeadingsAux_mem_pos (ls : List String) :
    ∀ (i : Nat) (cur : List String) (lvl : Option Nat) (pos : Nat),
      i = pos + cur.length →
      ∀ ch ∈ splitHeadingsAux ls i cur lvl pos, pos ≤ ch.pos := by
  induction ls with
  | nil =>
    intro i cur lvl pos _ ch hch
    rw [splitHeadingsAux_nil_eq] at hch
    split at hch
    · simp at hch
    · simp at hch
      subst hch
      simp
  | cons line rest ih =>
    intro i cur lvl pos hi ch hch
    cases hh : headerLevel line with
    | some n =>
      rw [splitHeadingsAux_cons_header _ _ _ _ _ _ _ hh] at hch
      rcases List.mem_append.mp hch with h1 | h2
      · split at h1
        · simp at h1
        · simp at h1
          subst h1
          simp
      · have := ih (i + 1) [line] (some n) i (by simp) ch h2
        omega
    | none =>
      rw [splitHeadingsAux_cons_plain _ _ _ _ _ _ hh] at hch
      exact ih (i + 1) (cur ++ [line]) lvl pos (by simp [hi]; omega) ch hch

theorem splitHeadingsAux_chain (ls : List String) :
    ∀ (i : Nat) (cur : List String) (lvl : Option Nat) (pos : Nat),
      i = pos + cur.length →
      (∀ l ∈ ls, ('\n' : Char) ∉ l.data) →
      (∀ x ∈ cur, ('\n' : Char) ∉ x.data) →
      List.Chain' spacedChunks (splitHeadingsAux ls i cur lvl pos) := by
  induction ls with
  | nil =>
    intro i cur lvl pos _ _ _
    rw [splitHeadingsAux_nil_eq]
    split
    · exact List.chain'_nil
    · simp
  | cons line rest ih =>
    intro i cur lvl pos hi hls hcur
    have hls' : ∀ l ∈ rest, ('\n' : Char) ∉ l.data :=
      fun l hl => hls l (List.mem_cons_of_mem _ hl)
    have hline : ('\n' : Char) ∉ line.data := hls line (List.mem_cons_self _ _)
    cases hh : headerLevel line with
    | some n =>
      rw [splitHeadingsAux_cons_header _ _ _ _ _ _ _ hh]
      by_cases hc : cur.isEmpty
      · rw [if_pos hc, List.nil_append]
        exact ih (i + 1) [line] (some n) i (by simp) hls' (by simpa using hline)
      · rw [if_neg hc, List.singleton_append, List.chain'_cons']
        have hcur_ne : cur ≠ [] := fun hcc => by simp [hcc] at hc
        constructor
        · intro y hy
          have hymem : y ∈ splitHeadingsAux rest (i + 1) [line] (some n) i :=
            List.mem_of_mem_head? hy
          have hpos := splitHeadingsAux_mem_pos rest (i + 1) [line] (some n) i
            (by simp) y hymem
          simp only [spacedChunks]
          rw [lineCount_joinNl cur hcur_ne hcur]
          omega
        · exact ih (i + 1) [line] (some n) i (by simp) hls' (by simpa using hline)
    | none =>
      rw [splitHeadingsAux_cons_plain _ _ _ _ _ _ hh]
      refine ih (i + 1) (cur ++ [line]) lvl pos (by simp [hi]; omega) hls' ?_
      intro x hx
      rcases List.mem_append.mp hx with h1 | h2
      · exact hcur x h1
      · simp at h2
        subst h2
        exact hline

theorem splitHeadings_join (content : String) :
    joinNl ((splitHeadings content).map Chunk.text) = content := by
  unfold splitHeadings
  rw [splitHeadingsAux_join, if_pos (by simp)]
  exact joinNl_pyLines content

theorem splitHeadings_chain (content : String) :
    List.Chain' spacedChunks (splitHeadings content) := by
  unfold splitHeadings
  exact splitHeadingsAux_chain (pyLines content) 0 [] none 0 (by simp)
    (mem_pyLines_no_nl content) (by simp)

/-! ### Stable sort by position -/

theorem insertByPos_of_le (c : Chunk) (ds : List Chunk)
    (h : ∀ d ∈ ds, c.pos ≤ d.pos) : insertByPos c ds = c :: ds := by
  cases ds with
  | nil => rfl
  | cons d ds =>
    unfold insertByPos
    rw [if_pos (h d (List.mem_cons_self _ _))]

theorem sortByPos_eq_self (l : List Chunk) (h : List.Chain' posLt l) :
    sortByPos l = l := by
  induction l with
  | nil => rfl
  | cons c cs ih =>
    unfold sortByPos
    rw [ih h.tail]
    cases cs with
    | nil => rfl
    | cons d ds =>
      unfold insertByPos
      rw [if_pos (le_of_lt (List.chain'_cons.mp h).1)]

/-! ### Size-based sub-splitting invariants -/

theorem packParasAux_length_le_cons (m : Nat) :
    ∀ (ps cur : List String) (size : Nat), cur ≠ [] →
      (packParasAux m ps cur size).length ≤ ps.length + 1 := by
  intro ps
  induction ps with
  | nil =>
    intro cur size h
    rw [packParasAux]
    rw [if_neg (by simpa using h)]
    simp
  | cons p ps ih =>
    intro cur size h
    rw [packParasAux]
    by_cases hgt : size + p.length > m
    · rw [if_pos hgt, if_neg (by simpa using h), List.length_append]
      have h2 := ih [p] p.length (by simp)
      simp only [List.length_singleton, List.length_cons, List.length_nil]
      omega
    · rw [if_neg hgt]
      have h2 := ih (cur ++ [p]) (size + p.length) (by simp)
      simp only [List.length_cons]
      omega

theorem packParasAux_length_le_nil (m : Nat) :
    ∀ (ps : List String) (size : Nat),
      (packParasAux m ps [] size).length ≤ ps.length := by
  intro ps
  cases ps with
  | nil => intro size; simp [packParasAux]
  | cons p ps =>
    intro size
    rw [packParasAux]
    by_cases hgt : size + p.length > m
    · rw [if_pos hgt]
      have he : (if ([] : List String).isEmpty then ([] : List String)
          else [joinPP []]) = [] := rfl
      rw [he, List.nil_append]
      have h2 := packParasAux_length_le_cons m ps [p] p.length (by simp)
      simp only [List.length_cons]
      omega
    · rw [if_neg hgt]
      have h2 := packParasAux_length_le_cons m ps ([] ++ [p]) (size + p.length) (by simp)
      simp only [List.length_cons]
      omega

theorem packParasAux_eq_groups (m : Nat) :
    ∀ (ps cur : List String) (size : Nat),
      packParasAux m ps cur size = (packGroups m ps cur size).map joinPP := by
  intro ps
  induction ps with
  | nil =>
    intro cur size
    by_cases h : cur.isEmpty <;> simp [packParasAux, packGroups, h]
  | cons p ps ih =>
    intro cur size
    rw [packParasAux, packGroups]
    by_cases hgt : size + p.length > m
    · rw [if_pos hgt, if_pos hgt, List.map_append, ih]
      congr 1
      by_cases h : cur.isEmpty <;> simp [h]
    · rw [if_neg hgt, if_neg hgt, ih]

theorem packGroups_flatten (m : Nat) :
    ∀ (ps cur : List String) (size : Nat),
      (packGroups m ps cur size).flatten =
        (if cur.isEmpty then [] else cur) ++ ps := by
  intro ps
  induction ps with
  | nil =>
    intro cur size
    by_cases h : cur.isEmpty <;> simp [packGroups, h]
  | cons p ps ih =>
    intro cur size
    rw [packGroups]
    by_cases hgt : size + p.length > m
    · rw [if_pos hgt, List.flatten_append, ih]
      by_cases h : cur.isEmpty <;> simp [h]
    · rw [if_neg hgt, ih]
      by_cases h : cur.isEmpty
      · have hc : cur = [] := by simpa using h
        subst hc
        simp
      · rw [if_neg (by simp), if_neg h]
        simp

theorem packGroups_props (m : Nat) :
    ∀ (ps cur : List String) (size : Nat), size = paraLenSum cur →
      (2 ≤ cur.length → paraLenSum cur ≤ m) →
      ∀ g ∈ packGroups m ps cur size, g ≠ [] ∧ (2 ≤ g.length → paraLenSum g ≤ m) := by
  intro ps
  induction ps with
  | nil =>
    intro cur size _ hcur g hg
    rw [packGroups] at hg
    by_cases h : cur.isEmpty
    · simp [h] at hg
    · rw [if_neg h] at hg
      simp at hg
      subst hg
      exact ⟨fun hc => by simp [hc] at h, hcur⟩
  | cons p ps ih =>
    intro cur size hsz hcur g hg
    rw [packGroups] at hg
    by_cases hgt : size + p.length > m
    · rw [if_pos hgt] at hg
      rcases List.mem_append.mp hg with h1 | h2
      · by_cases h : cur.isEmpty
        · simp [h] at h1
        · rw [if_neg h] at h1
          simp at h1
          subst h1
          exact ⟨fun hc => by simp [hc] at h, hcur⟩
      · exact ih [p] p.length (by simp [paraLenSum]) (by simp) g h2
    · rw [if_neg hgt] at hg
      refine ih (cur ++ [p]) (size + p.length) ?_ ?_ g hg
      · simp [paraLenSum, hsz]
      · intro _
        have hle : size + p.length ≤ m := le_of_not_lt hgt
        have heq : paraLenSum (cur ++ [p]) = size + p.length := by
          simp [paraLenSum, hsz]
        omega

theorem joinStr_cons_ne (sep : String) (x : String) (ys : List String) (h : ys ≠ []) :
    joinStr sep (x :: ys) = x ++ sep ++ joinStr sep ys := by
  apply string_data_ext
  calc (joinStr sep (x :: ys)).data
      = joinSepC sep.data (x.data :: ys.map String.data) := rfl
    _ = x.data ++ sep.data ++ joinSepC sep.data (ys.map String.data) :=
        joinSepC_cons_ne _ _ _ (by simpa using h)
    _ = (x ++ sep ++ joinStr sep ys).data := by
        simp [String.data_append]
        rfl

theorem joinStr_singleton (sep : String) (x : String) : joinStr sep [x] = x := by
  apply string_data_ext
  rfl

theorem joinPP_length (g : List String) (h : g ≠ []) :
    (joinPP g).length = paraLenSum g + 2 * (g.length - 1) := by
  induction g with
  | nil => exact absurd rfl h
  | cons x gs ih =>
    cases gs with
    | nil =>
      unfold joinPP
      rw [joinStr_singleton]
      simp [paraLenSum]
    | cons y gs2 =>
      unfold joinPP at ih ⊢
      rw [joinStr_cons_ne ppStr x (y :: gs2) (by simp), String.length_append,
        String.length_append, ih (by simp)]
      have hpp : ppStr.length = 2 := rfl
      rw [hpp]
      simp only [paraLenSum, List.map_cons, List.sum_cons, List.length_cons]
      omega

/-! ### Position bounds of the expanded chunk list -/

theorem mem_enumFrom_bounds {α : Type} :
    ∀ (xs : List α) (n : Nat) (p : Nat × α),
      p ∈ xs.enumFrom n → n ≤ p.1 ∧ p.1 < n + xs.length := by
  intro xs
  induction xs with
  | nil => intro n p hp; simp [List.enumFrom] at hp
  | cons x xs ih =>
    intro n p hp
    rcases List.mem_cons.mp hp with rfl | h2
    · simp
    · have := ih (n + 1) p h2
      simp only [List.length_cons]
      omega

theorem splitLargeChunk_length_le (m : Nat) (t : String) :
    (splitLargeChunk m t).length ≤ lineCount t := by
  unfold splitLargeChunk
  have h1 := packParasAux_length_le_nil m (pySplit ppStr t) 0
  have h2 := pySplit_pp_le_lines t
  unfold lineCount
  omega

theorem expandChunk_mem (m : Nat) (c : Chunk) :
    ∀ x ∈ expandChunk m c, c.pos ≤ x.pos ∧ x.pos < c.pos + lineCount c.text := by
  intro x hx
  unfold expandChunk at hx
  by_cases h : c.text.length > m
  · rw [if_pos h] at hx
    obtain ⟨pr, hpr, rfl⟩ := List.mem_map.mp hx
    have hb := mem_enumFrom_bounds (splitLargeChunk m c.text) 0 pr hpr
    have hlen := splitLargeChunk_length_le m c.text
    constructor
    · simp
    · show c.pos + pr.1 < c.pos + lineCount c.text
      omega
  · rw [if_neg h] at hx
    simp only [List.mem_singleton] at hx
    subst hx
    exact ⟨le_refl _, Nat.lt_add_of_pos_right (lineCount_pos _)⟩

theorem chain_enum_map (lvl : Option Nat) (p : Nat) :
    ∀ (xs : List String) (n : Nat),
      List.Chain' posLt
        ((xs.enumFrom n).map (fun pr => Chunk.mk lvl pr.2 (p + pr.1))) := by
  intro xs
  induction xs with
  | nil => intro n; simp [List.enumFrom]
  | cons x xs ih =>
    intro n
    cases xs with
    | nil => simp [List.enumFrom]
    | cons y ys =>
      simp only [List.enumFrom, List.map_cons]
      refine List.chain'_cons.mpr ⟨?_, ?_⟩
      · simp [posLt]
      · have := ih (n + 1)
        simpa [List.enumFrom, List.map_cons] using this

theorem expandChunk_chain (m : Nat) (c : Chunk) :
    List.Chain' posLt (expandChunk m c) := by
  unfold expandChunk
  by_cases h : c.text.length > m
  · rw [if_pos h]
    exact chain_enum_map c.level c.pos (splitLargeChunk m c.text) 0
  · rw [if_neg h]
    simp

theorem chain_flatMap_expand (m : Nat) :
    ∀ l : List Chunk, List.Pairwise spacedChunks l →
      List.Chain' posLt (l.flatMap (expandChunk m)) := by
  intro l
  induction l with
  | nil => intro _; simp
  | cons c rest ih =>
    intro hp
    rw [List.flatMap_cons, List.chain'_append]
    refine ⟨expandChunk_chain m c, ih (List.pairwise_cons.mp hp).2, ?_⟩
    intro x hx y hy
    have hxm : x ∈ expandChunk m c := List.mem_of_mem_getLast? hx
    have hym : y ∈ rest.flatMap (expandChunk m) := List.mem_of_mem_head? hy
    obtain ⟨d, hd, hyd⟩ := List.mem_flatMap.mp hym
    have h1 := (expandChunk_mem m c x hxm).2
    have h2 := (expandChunk_mem m d y hyd).1
    have h3 : spacedChunks c d := (List.pairwise_cons.mp hp).1 d hd
    unfold posLt
    unfold spacedChunks at h3
    omega

theorem flatMap_id_of (l : List Chunk) (f : Chunk → List Chunk)
    (h : ∀ c ∈ l, f c = [c]) : l.flatMap f = l := by
  induction l with
  | nil => rfl
  | cons c cs ih =>
    rw [List.flatMap_cons, h c (List.mem_cons_self _ _),
      ih (fun d hd => h d (List.mem_cons_of_mem _ hd))]
    rfl

/-! ### Claims C1 and C2 -/

/-- C1: when no heading-delimited chunk's text exceeds maxChunkSize (so the
size-based post-processing leaves every chunk untouched), joining the chunk
texts of split_markdown's output, taken in ascending originalPosition order
as translate_file does, with a single newline separator, reconstructs the
document exactly. -/
theorem claim_C1 (maxSize : Nat) (doc : String)
    (h : ∀ c ∈ splitHeadings doc, c.text.length ≤ maxSize) :
    joinNl ((sortByPos (splitMarkdown maxSize doc)).map Chunk.text) = doc := by
  have hid : splitMarkdown maxSize doc = splitHeadings doc := by
    unfold splitMarkdown
    refine flatMap_id_of _ _ ?_
    intro c hc
    unfold expandChunk
    rw [if_neg (Nat.not_lt.mpr (h c hc))]
  have hchain : List.Chain' posLt (splitHeadings doc) := by
    refine (splitHeadings_chain doc).imp ?_
    intro a b hab
    unfold posLt
    unfold spacedChunks at hab
    have := lineCount_pos a.text
    omega
  rw [hid, sortByPos_eq_self _ hchain, splitHeadings_join]

theorem claim_C1_witness :
    (∀ c ∈ splitHeadings docC6, c.text.length ≤ 1000) ∧
    joinNl ((sortByPos (splitMarkdown 1000 docC6)).map Chunk.text) = docC6 :=
  ⟨by decide, claim_C1 1000 docC6 (by decide)⟩

/-- C2 counterexample: the document "a\n\nb" with maxChunkSize 1 has a single
heading-phase chunk at position 0; after size-based splitting its second
sub-chunk carries position 0 + 1 = 1, not the parent's original position, so
not every sub-chunk carries its parent's position as a primary key with the
sub-index as a separate secondary key. -/
theorem claim_C2_cex :
    splitHeadings docAB = [⟨none, docAB, 0⟩] ∧
    splitMarkdown 1 docAB = [⟨none, "a", 0⟩, ⟨none, "b", 1⟩] ∧
    ¬ ∀ c ∈ splitMarkdown 1 docAB, c.pos = 0 := by
  refine ⟨by decide, by decide, ?_⟩
  intro hall
  have := hall ⟨none, "b", 1⟩ (by decide)
  simp at this

/-- C2 corrected: sub-chunks receive positions parentPosition + subIndex
rather than the parent's position with a separate secondary key; still,
because a heading chunk of L lines yields at most L sub-chunks, every
sub-chunk position stays strictly below the next chunk's position, the
positions of split_markdown's output are strictly increasing in discovery
order, and the stable sort by originalPosition used by translate_file is the
identity: chunks are never reordered relative to discovery order and
sub-chunks are never interleaved with later chunks. -/
theorem claim_C2 (maxSize : Nat) (doc : String) :
    List.Chain' posLt (splitMarkdown maxSize doc) ∧
    sortByPos (splitMarkdown maxSize doc) = splitMarkdown maxSize doc := by
  have hpair : List.Pairwise spacedChunks (splitHeadings doc) :=
    List.chain'_iff_pairwise.mp (splitHeadings_chain doc)
  have hchain := chain_flatMap_expand maxSize (splitHeadings doc) hpair
  exact ⟨hchain, sortByPos_eq_self _ hchain⟩

/-! ### Claims C3 and C6 and C8: segmentation corner cases -/

/-- C3 counterexample: the heading-free document "ab\n\ncd" (length 6) with
maxChunkSize 4 is oversized and goes through size-based sub-splitting, yet
the single resulting sub-chunk is again "ab\n\ncd" of length 6 > 4, and it is
not a single paragraph (its two paragraphs have length 2 each): the greedy
packer does not count the two-character '\n\n' separators it restores. -/
theorem claim_C3_cex :
    splitMarkdown 4 docABCD = [⟨none, docABCD, 0⟩] ∧
    docABCD.length = 6 ∧
    pySplit ppStr docABCD = ["ab", "cd"] ∧
    ¬ ∀ c ∈ splitMarkdown 4 docABCD,
        (c.text.length ≤ 4 ∨ pySplit ppStr c.text = [c.text]) := by
  refine ⟨by decide, by decide, by decide, ?_⟩
  intro hall
  rcases hall ⟨none, docABCD, 0⟩ (by decide) with h | h
  · exact absurd h (by decide)
  · exact absurd h (by decide)

/-- C3 corrected: every sub-chunk produced by size-based sub-splitting is the
'\n\n'-join of a nonempty group of consecutive paragraphs; the groups
concatenate to exactly the paragraph list, so no paragraph is truncated or
dropped; a group of two or more paragraphs has paragraph-length sum at most
maxChunkSize — the separators restored between the paragraphs are not
counted, so the sub-chunk's character length is only bounded by
maxChunkSize + 2·(k−1) for k paragraphs; and a paragraph longer than
maxChunkSize always ends up alone as its own oversized sub-chunk. -/
theorem claim_C3 (maxSize : Nat) (content : String) :
    ∃ gs : List (List String),
      splitLargeChunk maxSize content = gs.map joinPP ∧
      gs.flatten = pySplit ppStr content ∧
      ∀ g ∈ gs, g ≠ [] ∧
        (2 ≤ g.length → paraLenSum g ≤ maxSize) ∧
        (joinPP g).length = paraLenSum g + 2 * (g.length - 1) ∧
        (∀ p ∈ g, maxSize < p.length → g = [p]) := by
  refine ⟨packGroups maxSize (pySplit ppStr content) [] 0, ?_, ?_, ?_⟩
  · exact packParasAux_eq_groups maxSize _ [] 0
  · rw [packGroups_flatten]
    simp
  · intro g hg
    have hp := packGroups_props maxSize (pySplit ppStr content) [] 0
      (by simp [paraLenSum]) (by simp) g hg
    refine ⟨hp.1, hp.2, joinPP_length g hp.1, ?_⟩
    intro p hpmem hplen
    cases g with
    | nil => exact absurd rfl hp.1
    | cons q qs =>
      cases qs with
      | nil =>
        simp only [List.mem_singleton] at hpmem
        subst hpmem
        rfl
      | cons r rs =>
        exfalso
        have hlen2 : 2 ≤ (q :: r :: rs).length := by
          simp only [List.length_cons]
          omega
        have h2 : paraLenSum (q :: r :: rs) ≤ maxSize := hp.2 hlen2
        have h3 : p.length ≤ paraLenSum (q :: r :: rs) := by
          unfold paraLenSum
          exact List.single_le_sum (fun x _ => Nat.zero_le x)
            p.length (List.mem_map_of_mem String.length hpmem)
        omega

/-- C6 counterexample: on the spec's scenario document the two chunk texts
are not the claimed pair — the first chunk keeps the blank line before the
next heading, so its text carries a trailing newline. -/
theorem claim_C6_cex :
    (splitMarkdown 1000 docC6).map Chunk.text ≠
      ["# Title\n\nHello world.", "## Sub\n\nMore text."] := by
  decide

/-- C6 corrected: the scenario document segments into exactly two chunks, the
first with text "# Title\n\nHello world.\n" (the blank separator line before
the next heading stays with the preceding chunk, leaving a trailing newline),
level 1 and position 0, the second with text "## Sub\n\nMore text.", level 2
and position 4. -/
theorem claim_C6 :
    splitMarkdown 1000 docC6 =
      [⟨some 1, "# Title\n\nHello world.\n", 0⟩,
       ⟨some 2, "## Sub\n\nMore text.", 4⟩] := by
  decide

/-- C8 counterexample: segmentation of the empty document does not return an
empty sequence; it returns one chunk with empty text. -/
theorem claim_C8_cex :
    splitMarkdown 1000 emptyDoc ≠ [] ∧
    splitMarkdown 1000 emptyDoc = [⟨none, "", 0⟩] := by
  decide

/-- C8 corrected: for every maxChunkSize, segmenting the empty document
yields exactly one chunk, with no heading level, empty text and position 0
(the spec's §7 wording — a single whole-document chunk — matches the code;
its §8 empty-sequence wording does not). -/
theorem claim_C8 (maxSize : Nat) :
    splitMarkdown maxSize emptyDoc = [⟨none, emptyDoc, 0⟩] := by
  have h : splitHeadings emptyDoc = [⟨none, emptyDoc, 0⟩] := by decide
  unfold splitMarkdown
  rw [h, List.flatMap_cons, List.flatMap_nil, List.append_nil]
  unfold expandChunk
  rw [if_neg (by simp [emptyDoc])]

/-! ### Claims C4 and C5: per-chunk failure isolation -/

/-- C4: in translate_file, a chunk whose transform call fails contributes its
original untransformed text with zero token usage and processing continues;
with three chunks and a failure on the middle one, the output joins the two
transformed texts around the middle chunk's original text, and the token
totals are the sums over chunks 1 and 3 alone. -/
theorem claim_C4 (maxSize : Nat) (doc : String)
    (transform : String → Option (String × Nat × Nat)) (c1 c2 c3 : Chunk)
    (s1 s3 : String) (p1 q1 p3 q3 : Nat)
    (hs : sortByPos (splitMarkdown maxSize doc) = [c1, c2, c3])
    (h1 : transform c1.text = some (s1, p1, q1))
    (h2 : transform c2.text = none)
    (h3 : transform c3.text = some (s3, p3, q3)) :
    translateFile maxSize transform doc =
      (joinNl [s1, c2.text, s3], p1 + p3, q1 + q3) := by
  unfold translateFile
  rw [hs]
  simp only [List.foldl_cons, List.foldl_nil, translateChunk, h1, h2, h3]
  simp

theorem claim_C4_witness :
    translateFile 1000 tf3 doc3 = (joinNl ["TA", "# B\ny", "TC"], 3 + 7, 5 + 11) :=
  claim_C4 1000 doc3 tf3 ⟨some 1, "# A\nx", 0⟩ ⟨some 1, "# B\ny", 2⟩
    ⟨some 1, "# C\nz", 4⟩ "TA" "TC" 3 5 7 11
    (by decide) (by decide) (by decide) (by decide)

/-- C5 counterexample: with three windows and a completion failure on the
second, the assembled sections are exactly the first and third windows'
sections: the failed window's content is silently omitted (no fallback to
its original text, which appears nowhere in the output). -/
theorem claim_C5_cex :
    (polishLoop genMid [segA, segB, segC]).1 =
      ["## 第1部分\n\npA", "## 第3部分\n\npC"] ∧
    (polishLoop genMid [segA, segB, segC]).1.length = 2 ∧
    ∀ s ∈ (polishLoop genMid [segA, segB, segC]).1, hasSubStr segB s = false := by
  decide

/-- C5 corrected: when the completion call for a time-window fails,
generate_completion catches the error and returns its null fallback, the
`if note_section and usage_stats` guard then skips the window — it is
silently omitted from the assembled sections with no fallback text and no
usage — and processing continues with the remaining windows.  Three-window
instance: a failure on window 2 yields exactly the sections and merged usage
of windows 1 and 3. -/
theorem claim_C5 (gen : String → Option (String × UsageStats))
    (wa wb wc na nc : String) (ua uc : UsageStats)
    (hA : gen (notePrompt wa) = some (na, ua)) (hB : gen (notePrompt wb) = none)
    (hC : gen (notePrompt wc) = some (nc, uc))
    (hna : na.data ≠ []) (hnc : nc.data ≠ []) :
    polishLoop gen [wa, wb, wc] =
      ([sectionHeaderOf 0 ++ na, sectionHeaderOf 2 ++ nc],
        mergeStats (mergeStats zeroStats ua) uc) := by
  unfold polishLoop
  simp only [List.enum, List.enumFrom, List.foldl_cons, List.foldl_nil, hA, hB, hC]
  rw [if_neg (by simpa using hnc), if_neg (by simpa using hna)]
  simp

theorem claim_C5_witness :
    polishLoop genMid [segA, segB, segC] =
      ([sectionHeaderOf 0 ++ polA, sectionHeaderOf 2 ++ polC],
        mergeStats (mergeStats zeroStats usageA) usageC) :=
  claim_C5 genMid segA segB segC polA polC usageA usageC
    (by decide) (by decide) (by decide) (by decide) (by decide)

/-! ### Claim C9: usage merging -/

theorem addF64_comm (a b : F64) : addF64 a b = addF64 b a := by
  unfold addF64
  rw [min_comm b.e a.e, add_comm (b.m * 2 ^ (b.e - min a.e b.e).toNat)]

/-- C9 counterexample: the cost fields are Python floats and float addition
is not associative: with costs 0.1, 0.2, 0.3, left association gives
0.6000000000000001 (significand 5404319552844596 at 2 ^ (-53)) while right
association gives 0.6 (significand 5404319552844595), so merging three
usage records is not associative. -/
theorem claim_C9_cex :
    mergeStats (mergeStats statTenth statFifth) statThreeTenths
      ≠ mergeStats statTenth (mergeStats statFifth statThreeTenths) := by
  decide

/-- C9 corrected: mergeStats is field-wise addition of the five usage fields
with no normalization (naturals on the token counts, binary64 float addition
on the three costs) and it is commutative; the token-count fields are also
associative, but merging as a whole is not (the float costs round, see the
counterexample). -/
theorem claim_C9 :
    (∀ a b : UsageStats, mergeStats a b =
      ⟨a.prompt_tokens + b.prompt_tokens, a.completion_tokens + b.completion_tokens,
        addF64 a.prompt_cost b.prompt_cost, addF64 a.completion_cost b.completion_cost,
        addF64 a.total_cost b.total_cost⟩) ∧
    (∀ a b : UsageStats, mergeStats a b = mergeStats b a) ∧
    (∀ a b c : UsageStats,
      (mergeStats (mergeStats a b) c).prompt_tokens
        = (mergeStats a (mergeStats b c)).prompt_tokens ∧
      (mergeStats (mergeStats a b) c).completion_tokens
        = (mergeStats a (mergeStats b c)).completion_tokens) := by
  refine ⟨fun a b => rfl, fun a b => ?_, fun a b c => ?_⟩
  · simp [mergeStats, Nat.add_comm, addF64_comm]
  · simp [mergeStats, Nat.add_assoc]

/-! ### Claim C10: digit lines never reach the polisher -/

theorem keep_stripNotDigits (line : String) (h : keepLine line = true) :
    stripNotDigits line := by
  intro hc
  have hd : pyIsDigit (pyStrip line) = true := by
    unfold pyIsDigit
    rw [Bool.and_eq_true]
    constructor
    · cases hdata : (pyStrip line).data with
      | nil => exact absurd hdata hc.1
      | cons a as => rfl
    · exact hc.2
  unfold keepLine at h
  rw [Bool.and_eq_true] at h
  have h2 := h.2
  rw [hd] at h2
  exact absurd h2 (by decide)

theorem ok_lines_of_join (xs : List String)
    (h : ∀ x ∈ xs, stripNotDigits x ∧ ('\n' : Char) ∉ x.data) :
    ∀ l ∈ pyLines (joinNl xs), stripNotDigits l := by
  intro l hl
  cases xs with
  | nil =>
    have he : pyLines (joinNl []) = [emptyDoc] := by decide
    rw [he] at hl
    simp only [List.mem_singleton] at hl
    subst hl
    decide
  | cons x xs =>
    rw [pyLines_joinNl (x :: xs) (by simp) (fun y hy => (h y hy).2)] at hl
    exact (h l hl).1

theorem windowStep_cases (st : WinState) (line : String) :
    windowStep st line = st ∨
    (windowStep st line = ⟨st.segs ++ (if st.cur.isEmpty then [] else [joinNl st.cur]),
      [], parseTimeQ ((pySplit arrowStr line).getD 0 "")⟩) ∨
    (windowStep st line = ⟨st.segs, st.cur ++ [line], st.time⟩ ∧ keepLine line = true) := by
  unfold windowStep
  by_cases ha : hasSubStr arrowStr line
  · rw [if_pos ha]
    by_cases hb : parseTimeQ ((pySplit arrowStr line).getD 0 "") - st.time > 3600
    · right; left
      rw [if_pos hb]
    · left
      rw [if_neg hb]
  · rw [if_neg ha]
    by_cases hk : keepLine line
    · right; right
      exact ⟨by rw [if_pos hk], hk⟩
    · left
      rw [if_neg hk]

theorem windowFold_ok (lines : List String) :
    ∀ st : WinState,
      (∀ l ∈ lines, ('\n' : Char) ∉ l.data) →
      (∀ s ∈ st.segs, ∀ l ∈ pyLines s, stripNotDigits l) →
      (∀ x ∈ st.cur, stripNotDigits x ∧ ('\n' : Char) ∉ x.data) →
      (∀ s ∈ (lines.foldl windowStep st).segs, ∀ l ∈ pyLines s, stripNotDigits l) ∧
      (∀ x ∈ (lines.foldl windowStep st).cur,
        stripNotDigits x ∧ ('\n' : Char) ∉ x.data) := by
  induction lines with
  | nil =>
    intro st _ h1 h2
    exact ⟨h1, h2⟩
  | cons line rest ih =>
    intro st hnl h1 h2
    rw [List.foldl_cons]
    have hstep : (∀ s ∈ (windowStep st line).segs, ∀ l ∈ pyLines s, stripNotDigits l) ∧
        (∀ x ∈ (windowStep st line).cur,
          stripNotDigits x ∧ ('\n' : Char) ∉ x.data) := by
      rcases windowStep_cases st line with hw | hw | ⟨hw, hk⟩
      · rw [hw]
        exact ⟨h1, h2⟩
      · rw [hw]
        constructor
        · intro s hs
          rcases List.mem_append.mp hs with hs1 | hs2
          · exact h1 s hs1
          · by_cases hc : st.cur.isEmpty
            · rw [if_pos hc] at hs2
              simp at hs2
            · rw [if_neg hc] at hs2
              simp only [List.mem_singleton] at hs2
              subst hs2
              exact ok_lines_of_join st.cur h2
        · intro x hx
          simp at hx
      · rw [hw]
        refine ⟨h1, ?_⟩
        intro x hx
        rcases List.mem_append.mp hx with hx1 | hx2
        · exact h2 x hx1
        · simp only [List.mem_singleton] at hx2
          subst hx2
          exact ⟨keep_stripNotDigits x hk,
            hnl x (List.mem_cons_self _ _)⟩
    exact ih (windowStep st line) (fun l hl => hnl l (List.mem_cons_of_mem _ hl))
      hstep.1 hstep.2

/-- C10: in both branches of generate_notes — the single-segment branch for
durations under 60 minutes and the 60-minute windowing branch — every line
whose stripped content is solely decimal digits is excluded from the text
sent for polishing: no line of any produced segment strips to a nonempty
all-digit string. -/
theorem claim_C10 (content : String) :
    ∀ seg ∈ generateSegments content, ∀ line ∈ pyLines seg, stripNotDigits line := by
  intro seg hseg line hline
  unfold generateSegments at hseg
  by_cases hd : totalDuration content < 3600
  · rw [if_pos hd] at hseg
    unfold shortSegments at hseg
    simp only [List.mem_singleton] at hseg
    subst hseg
    refine ok_lines_of_join _ ?_ line hline
    intro x hx
    rw [List.mem_filter] at hx
    have hk : keepLine x = true := by
      have h2 := hx.2
      rw [Bool.and_eq_true] at h2
      exact h2.1
    exact ⟨keep_stripNotDigits x hk, mem_pyLines_no_nl content x hx.1⟩
  · rw [if_neg hd] at hseg
    simp only [longSegments] at hseg
    have hfold := windowFold_ok (pyLines content) ⟨[], [], 0⟩
      (mem_pyLines_no_nl content) (by simp) (by simp)
    rcases List.mem_append.mp hseg with hs1 | hs2
    · exact hfold.1 seg hs1 line hline
    · by_cases hc : ((pyLines content).foldl windowStep ⟨[], [], 0⟩).cur.isEmpty
      · rw [if_pos hc] at hs2
        simp at hs2
      · rw [if_neg hc] at hs2
        simp only [List.mem_singleton] at hs2
        subst hs2
        exact ok_lines_of_join _ (fun x hx => hfold.2 x hx) line hline

theorem claim_C10_witness : stripNotDigits docW10 :=
  claim_C10 docW10 docW10 (by decide) docW10 (by decide)

/-! ### Decimal shape of Nat.toString -/

theorem digitChar_isDigit : ∀ k : Nat, k < 10 → (Nat.digitChar k).isDigit = true := by
  decide

theorem toDigitsCore_digits (fuel : Nat) :
    ∀ (n : Nat) (ds : List Char), (∀ c ∈ ds, c.isDigit = true) →
      ∀ c ∈ Nat.toDigitsCore 10 fuel n ds, c.isDigit = true := by
  induction fuel with
  | zero =>
    intro n ds hds c hc
    exact hds c hc
  | succ f ih =>
    intro n ds hds c hc
    simp only [Nat.toDigitsCore] at hc
    have hcons : ∀ x ∈ Nat.digitChar (n % 10) :: ds, x.isDigit = true := by
      intro x hx
      rcases List.mem_cons.mp hx with rfl | h2
      · exact digitChar_isDigit (n % 10) (Nat.mod_lt n (by omega))
      · exact hds x h2
    by_cases hz : n / 10 = 0
    · rw [if_pos hz] at hc
      exact hcons c hc
    · rw [if_neg hz] at hc
      exact ih (n / 10) _ hcons c hc

theorem toDigitsCore_ne_nil (fuel : Nat) :
    ∀ (n : Nat) (ds : List Char), ds ≠ [] → Nat.toDigitsCore 10 fuel n ds ≠ [] := by
  induction fuel with
  | zero =>
    intro n ds h
    simpa only [Nat.toDigitsCore] using h
  | succ f ih =>
    intro n ds h
    simp only [Nat.toDigitsCore]
    by_cases hz : n / 10 = 0
    · rw [if_pos hz]
      simp
    · rw [if_neg hz]
      exact ih (n / 10) _ (by simp)

theorem natToString_data (n : Nat) :
    (toString n).data = Nat.toDigitsCore 10 (n + 1) n [] := rfl

theorem natToString_digits (n : Nat) : ∀ c ∈ (toString n).data, c.isDigit = true := by
  intro c hc
  rw [natToString_data] at hc
  exact toDigitsCore_digits (n + 1) n [] (by simp) c hc

theorem natToString_ne_nil (n : Nat) : (toString n).data ≠ [] := by
  rw [natToString_data]
  simp only [Nat.toDigitsCore]
  by_cases hz : n / 10 = 0
  · rw [if_pos hz]
    simp
  · rw [if_neg hz]
    exact toDigitsCore_ne_nil n (n / 10) _ (by simp)

/-! ### Character classes -/

theorem isPySpace_not_digit (c : Char) (h : isPySpace c = true) : c.isDigit = false := by
  simp only [isPySpace, Bool.or_eq_true, decide_eq_true_eq] at h
  rcases h with ((((h | h) | h) | h) | h) | h <;> subst h <;> decide

theorem isDigit_not_pySpace (c : Char) (h : c.isDigit = true) : isPySpace c = false := by
  cases hs : isPySpace c
  · rfl
  · have h2 := isPySpace_not_digit c hs
    rw [h] at h2
    exact absurd h2 (by decide)

theorem isDigit_ne (c : Char) (h : c.isDigit = true) (d : Char)
    (hd : d.isDigit = false) : c ≠ d := by
  intro he
  rw [he, hd] at h
  exact absurd h (by decide)

theorem dropWhile_eq_self_of (p : Char → Bool) (l : List Char)
    (h : ∀ c ∈ l, p c = false) : l.dropWhile p = l := by
  cases l with
  | nil => rfl
  | cons x xs =>
    rw [List.dropWhile_cons, if_neg (by simp [h x (List.mem_cons_self _ _)])]

theorem pyStrip_eq_self (s : String) (h : ∀ c ∈ s.data, isPySpace c = false) :
    pyStrip s = s := by
  apply string_data_ext
  unfold pyStrip
  rw [dropWhile_eq_self_of _ _ h,
    dropWhile_eq_self_of _ _ (fun c hc => h c (List.mem_reverse.mp hc)),
    List.reverse_reverse]

theorem pyIsDigit_true (s : String) (hne : s.data ≠ [])
    (hd : ∀ c ∈ s.data, c.isDigit = true) : pyIsDigit s = true := by
  unfold pyIsDigit
  rw [Bool.and_eq_true]
  refine ⟨?_, List.all_eq_true.mpr hd⟩
  have h2 : s.data.isEmpty = false := by
    cases hdata : s.data with
    | nil => exact absurd hdata hne
    | cons a as => rfl
  rw [h2]
  rfl

theorem keepLine_digits_false (s : String) (hne : s.data ≠ [])
    (hd : ∀ c ∈ s.data, c.isDigit = true) : keepLine s = false := by
  unfold keepLine
  rw [pyStrip_eq_self s (fun c hc => isDigit_not_pySpace c (hd c hc))]
  rw [pyIsDigit_true s hne hd]
  simp

theorem keepLine_natStr (n : Nat) : keepLine (toString n) = false :=
  keepLine_digits_false (toString n) (natToString_ne_nil n) (natToString_digits n)

theorem entryText_data (i : Nat) : (entryText i).data = 't' :: (toString i).data := by
  unfold entryText
  rw [String.data_append]
  rfl

theorem entryText_chars (i : Nat) :
    ∀ c ∈ (entryText i).data, c = 't' ∨ c.isDigit = true := by
  intro c hc
  rw [entryText_data] at hc
  rcases List.mem_cons.mp hc with rfl | h2
  · exact Or.inl rfl
  · exact Or.inr (natToString_digits i c h2)

theorem entryText_no_nl (i : Nat) : ('\n' : Char) ∉ (entryText i).data := by
  intro hmem
  rcases entryText_chars i _ hmem with h | h
  · exact absurd h (by decide)
  · exact absurd h (by decide)

theorem entryText_no_space (i : Nat) : (' ' : Char) ∉ (entryText i).data := by
  intro hmem
  rcases entryText_chars i _ hmem with h | h
  · exact absurd h (by decide)
  · exact absurd h (by decide)

theorem keepLine_entryText (i : Nat) : keepLine (entryText i) = true := by
  unfold keepLine
  rw [pyStrip_eq_self (entryText i) ?hsp]
  case hsp =>
    intro c hc
    rcases entryText_chars i c hc with rfl | h
    · decide
    · exact isDigit_not_pySpace c h
  have hdig : pyIsDigit (entryText i) = false := by
    unfold pyIsDigit
    have hall : (entryText i).data.all Char.isDigit = false := by
      have ht : ('t' : Char).isDigit = false := by decide
      rw [entryText_data, List.all_cons, ht]
      rfl
    rw [hall]
    simp
  rw [hdig]
  rw [entryText_data]
  rfl

/-! ### The timing line and its parse -/

theorem hasSubC_cons (sep : List Char) (x : Char) (xs : List Char) :
    hasSubC sep (x :: xs) = (sep.isPrefixOf (x :: xs) || hasSubC sep xs) := rfl

theorem hasSubC_append_sep (c : Char) (cs : List Char) :
    ∀ (a b : List Char), hasSubC (c :: cs) (a ++ (c :: cs) ++ b) = true := by
  intro a
  induction a with
  | nil =>
    intro b
    rw [List.nil_append]
    have hshape : (c :: cs) ++ b = c :: (cs ++ b) := rfl
    rw [hshape, hasSubC_cons, Bool.or_eq_true]
    left
    exact List.isPrefixOf_iff_prefix.mpr ⟨b, rfl⟩
  | cons x a' ih =>
    intro b
    have hshape : (x :: a') ++ (c :: cs) ++ b = x :: (a' ++ (c :: cs) ++ b) := by
      simp
    rw [hshape, hasSubC_cons, Bool.or_eq_true]
    right
    exact ih b

theorem hasSubC_not_head (c : Char) (cs : List Char) :
    ∀ (l : List Char), c ∉ l → hasSubC (c :: cs) l = false := by
  intro l
  induction l with
  | nil => intro _; rfl
  | cons x xs ih =>
    intro h
    rw [hasSubC_cons]
    have hx : (c :: cs).isPrefixOf (x :: xs) = false := by
      cases hp : (c :: cs).isPrefixOf (x :: xs)
      · rfl
      · obtain ⟨t, ht⟩ := List.isPrefixOf_iff_prefix.mp hp
        have hcx : c = x := by
          have h2 := congrArg List.head? ht
          simpa using h2
        exact absurd (by rw [hcx]; exact List.mem_cons_self x xs) h
    rw [hx, Bool.false_or]
    exact ih (fun hm => h (List.mem_cons_of_mem _ hm))

theorem hasSubStr_sandwich (a b : String) :
    hasSubStr arrowStr (a ++ arrowStr ++ b) = true := by
  unfold hasSubStr
  have hd : (a ++ arrowStr ++ b).data =
      a.data ++ (' ' :: ['-', '-', '>', ' ']) ++ b.data := by
    simp only [String.data_append]
    rfl
  rw [hd]
  exact hasSubC_append_sep ' ' ['-', '-', '>', ' '] a.data b.data

theorem hasSubStr_arrow_false (s : String) (h : (' ' : Char) ∉ s.data) :
    hasSubStr arrowStr s = false :=
  hasSubC_not_head ' ' ['-', '-', '>', ' '] s.data h

theorem hasSubStr_arrow_natStr (n : Nat) : hasSubStr arrowStr (toString n) = false := by
  refine hasSubStr_arrow_false _ ?_
  intro hmem
  exact absurd (natToString_digits n _ hmem) (by decide)

theorem pad2_data (n : Nat) :
    (pad2 n).data = if n < 10 then '0' :: (toString n).data else (toString n).data := by
  unfold pad2
  by_cases h : n < 10
  · rw [if_pos h, if_pos h]
    rfl
  · rw [if_neg h, if_neg h]

theorem pad2_digits (n : Nat) : ∀ c ∈ (pad2 n).data, c.isDigit = true := by
  intro c hc
  rw [pad2_data] at hc
  by_cases h : n < 10
  · rw [if_pos h] at hc
    rcases List.mem_cons.mp hc with rfl | h2
    · decide
    · exact natToString_digits n c h2
  · rw [if_neg h] at hc
    exact natToString_digits n c hc

theorem pad2_no_colon (n : Nat) : (':' : Char) ∉ (pad2 n).data := by
  intro hmem
  exact absurd (pad2_digits n _ hmem) (by decide)

theorem pad2_no_dot (n : Nat) : ('.' : Char) ∉ (pad2 n).data := by
  intro hmem
  exact absurd (pad2_digits n _ hmem) (by decide)

theorem fmtTS_data (t : Nat) :
    (fmtTS t).data = (pad2 (t / 3600)).data ++ [':'] ++ (pad2 (t % 3600 / 60)).data
      ++ [':'] ++ ((pad2 (t % 60)).data ++ [',', '0', '0', '0']) := by
  unfold fmtTS
  simp only [String.data_append, List.append_assoc]

theorem fmtTS_chars (t : Nat) :
    ∀ c ∈ (fmtTS t).data, c.isDigit = true ∨ c = ':' ∨ c = ',' := by
  intro c hc
  rw [fmtTS_data] at hc
  rcases List.mem_append.mp hc with h1 | h2
  · rcases List.mem_append.mp h1 with h3 | h4
    · rcases List.mem_append.mp h3 with h5 | h6
      · rcases List.mem_append.mp h5 with h7 | h8
        · exact Or.inl (pad2_digits _ c h7)
        · exact Or.inr (Or.inl (by simpa using h8))
      · exact Or.inl (pad2_digits _ c h6)
    · exact Or.inr (Or.inl (by simpa using h4))
  · rcases List.mem_append.mp h2 with h3 | h4
    · exact Or.inl (pad2_digits _ c h3)
    · simp only [List.mem_cons, List.not_mem_nil, or_false] at h4
      rcases h4 with rfl | rfl | rfl | rfl
      · exact Or.inr (Or.inr rfl)
      · exact Or.inl (by decide)
      · exact Or.inl (by decide)
      · exact Or.inl (by decide)

theorem fmtTS_no_space (t : Nat) : (' ' : Char) ∉ (fmtTS t).data := by
  intro hmem
  rcases fmtTS_chars t _ hmem with h | h | h
  · exact absurd h (by decide)
  · exact absurd h (by decide)
  · exact absurd h (by decide)

theorem fmtTS_no_nl (t : Nat) : ('\n' : Char) ∉ (fmtTS t).data := by
  intro hmem
  rcases fmtTS_chars t _ hmem with h | h | h
  · exact absurd h (by decide)
  · exact absurd h (by decide)
  · exact absurd h (by decide)

theorem digitsVal_pad2 : ∀ n : Nat, n < 100 → digitsVal (pad2 n).data = n := by
  decide

theorem replaceComma_data (n : Nat) :
    (pyReplaceComma (pad2 n ++ ",000")).data = (pad2 n).data ++ ['.', '0', '0', '0'] := by
  unfold pyReplaceComma
  show List.map _ ((pad2 n ++ ",000").data) = _
  rw [String.data_append, List.map_append]
  congr 1
  · have hpt : ∀ c ∈ (pad2 n).data, (if c = ',' then '.' else c) = c := by
      intro c hc
      exact if_neg (isDigit_ne c (pad2_digits n c hc) ',' (by decide))
    rw [List.map_congr_left hpt]
    exact List.map_id' _

theorem pySplit_sandwich_arrow (a b : String)
    (ha : (' ' : Char) ∉ a.data) (hb : (' ' : Char) ∉ b.data) :
    pySplit arrowStr (a ++ arrowStr ++ b) = [a, b] := by
  rw [pySplit_arrow_eq]
  have hd : (a ++ arrowStr ++ b).data =
      a.data ++ (' ' :: ['-', '-', '>', ' ']) ++ b.data := by
    simp only [String.data_append]
    rfl
  rw [hd]
  rw [splitOnFuel_append_sep ' ' ['-', '-', '>', ' '] a.data b.data _ (le_refl _) ha]
  rw [splitOnFuel_of_not_mem ' ' ['-', '-', '>', ' '] _ b.data (le_refl _) hb]
  rfl

theorem parseFloat_pad2 (n : Nat) (hn : n < 100) :
    parseFloatQ (pyReplaceComma (pad2 n ++ ",000")) = (n : ℚ) := by
  unfold parseFloatQ
  rw [pySplit_dot_eq, replaceComma_data]
  have hshape : (pad2 n).data ++ ['.', '0', '0', '0'] =
      (pad2 n).data ++ ('.' :: []) ++ ['0', '0', '0'] := by
    simp
  rw [hshape]
  rw [splitOnFuel_append_sep '.' [] _ _ _ (le_refl _) (pad2_no_dot n)]
  rw [splitOnFuel_of_not_mem '.' [] _ _ (le_refl _) (by decide)]
  simp only [List.map_cons, List.map_nil]
  show (digitsVal (pad2 n).data : ℚ)
      + (digitsVal ['0', '0', '0'] : ℚ) / ((10 : ℚ) ^ (3 : Nat)) = (n : ℚ)
  rw [digitsVal_pad2 n hn]
  norm_num [digitsVal]

theorem parseTime_fmtTS (t : Nat) (ht : t < 360000) : parseTimeQ (fmtTS t) = (t : ℚ) := by
  unfold parseTimeQ
  have hsplit : pySplit colonStr (fmtTS t) =
      [pad2 (t / 3600), pad2 (t % 3600 / 60), pad2 (t % 60) ++ ",000"] := by
    rw [pySplit_colon_eq, fmtTS_data]
    have hshape : (pad2 (t / 3600)).data ++ [':'] ++ (pad2 (t % 3600 / 60)).data ++ [':']
        ++ ((pad2 (t % 60)).data ++ [',', '0', '0', '0'])
        = (pad2 (t / 3600)).data ++ (':' :: []) ++ ((pad2 (t % 3600 / 60)).data
            ++ (':' :: []) ++ ((pad2 (t % 60)).data ++ [',', '0', '0', '0'])) := by
      simp [List.append_assoc]
    rw [hshape]
    rw [splitOnFuel_append_sep ':' [] _ _ _ (le_refl _) (pad2_no_colon _)]
    rw [splitOnFuel_append_sep ':' [] _ _ _ (le_refl _) (pad2_no_colon _)]
    rw [splitOnFuel_of_not_mem ':' [] _ _ (le_refl _) ?hnc]
    case hnc =>
      intro hmem
      rcases List.mem_append.mp hmem with h1 | h2
      · exact pad2_no_colon _ h1
      · exact absurd h2 (by decide)
    rfl
  rw [hsplit]
  simp only [List.getD_cons_zero, List.getD_cons_succ]
  rw [digitsVal_pad2 _ (by omega), digitsVal_pad2 _ (by omega),
    parseFloat_pad2 _ (by omega)]
  have harith : t / 3600 * 3600 + t % 3600 / 60 * 60 + t % 60 = t := by omega
  exact_mod_cast harith

/-! ### The windowing fold on the test transcript -/

theorem hasSubStr_arrow_empty : hasSubStr arrowStr emptyDoc = false := by decide

theorem keepLine_empty : keepLine emptyDoc = false := by decide

theorem windowStep_skip (st : WinState) (line : String)
    (h1 : hasSubStr arrowStr line = false) (h2 : keepLine line = false) :
    windowStep st line = st := by
  unfold windowStep
  rw [if_neg (by simp [h1]), if_neg (by simp [h2])]

theorem windowStep_keep (st : WinState) (line : String)
    (h1 : hasSubStr arrowStr line = false) (h2 : keepLine line = true) :
    windowStep st line = ⟨st.segs, st.cur ++ [line], st.time⟩ := by
  unfold windowStep
  rw [if_neg (by simp [h1]), if_pos h2]

theorem windowStep_empty (st : WinState) : windowStep st emptyDoc = st :=
  windowStep_skip st emptyDoc hasSubStr_arrow_empty keepLine_empty

theorem windowStep_ts (st : WinState) (a b : Nat) (ha : a < 360000) :
    windowStep st (fmtTS a ++ arrowStr ++ fmtTS b) =
      if ((a : Nat) : ℚ) - st.time > 3600 then
        ⟨st.segs ++ (if st.cur.isEmpty then [] else [joinNl st.cur]), [], ((a : Nat) : ℚ)⟩
      else st := by
  unfold windowStep
  rw [if_pos (hasSubStr_sandwich (fmtTS a) (fmtTS b))]
  rw [pySplit_sandwich_arrow _ _ (fmtTS_no_space a) (fmtTS_no_space b)]
  simp only [List.getD_cons_zero]
  rw [parseTime_fmtTS a ha]

theorem foldl_entryLines (st : WinState) (i : Nat) (hi : i < 72000) :
    (entryLines i).foldl windowStep st =
      if ((5 * i : Nat) : ℚ) - st.time > 3600 then
        ⟨st.segs ++ (if st.cur.isEmpty then [] else [joinNl st.cur]), [entryText i],
          ((5 * i : Nat) : ℚ)⟩
      else ⟨st.segs, st.cur ++ [entryText i], st.time⟩ := by
  unfold entryLines
  simp only [List.foldl_cons, List.foldl_nil]
  rw [windowStep_skip st (toString (i + 1)) (hasSubStr_arrow_natStr (i + 1))
    (keepLine_natStr (i + 1))]
  rw [windowStep_ts st (5 * i) (5 * i + 5) (by omega)]
  by_cases hgt : ((5 * i : Nat) : ℚ) - st.time > 3600
  · rw [if_pos hgt, if_pos hgt]
    rw [windowStep_keep _ _ (hasSubStr_arrow_false _ (entryText_no_space i))
      (keepLine_entryText i)]
    rw [windowStep_empty]
    rfl
  · rw [if_neg hgt, if_neg hgt]
    rw [windowStep_keep _ _ (hasSubStr_arrow_false _ (entryText_no_space i))
      (keepLine_entryText i)]
    rw [windowStep_empty]

theorem phase_fold : ∀ (k a : Nat) (st : WinState), a + k ≤ 72000 →
    (∀ j, a ≤ j → j < a + k → ¬(((5 * j : Nat) : ℚ) - st.time > 3600)) →
    ((List.range' a k).flatMap entryLines).foldl windowStep st =
      ⟨st.segs, st.cur ++ (List.range' a k).map entryText, st.time⟩ := by
  intro k
  induction k with
  | zero =>
    intro a st _ _
    simp
  | succ n ih =>
    intro a st hle hnb
    rw [List.range'_succ, List.flatMap_cons, List.foldl_append]
    rw [foldl_entryLines st a (by omega)]
    rw [if_neg (hnb a (le_refl a) (by omega))]
    rw [ih (a + 1) ⟨st.segs, st.cur ++ [entryText a], st.time⟩ (by omega)
      (fun j h1 h2 => hnb j (by omega) (by omega))]
    simp [List.append_assoc]

theorem durStep_skip (acc : ℚ) (line : String) (h : hasSubStr arrowStr line = false) :
    durStep acc line = acc := by
  unfold durStep
  rw [if_neg (by simp [h])]

theorem durStep_ts (acc : ℚ) (a b : Nat) (hb : b < 360000) :
    durStep acc (fmtTS a ++ arrowStr ++ fmtTS b) = max acc ((b : Nat) : ℚ) := by
  unfold durStep
  rw [if_pos (hasSubStr_sandwich (fmtTS a) (fmtTS b))]
  rw [pySplit_sandwich_arrow _ _ (fmtTS_no_space a) (fmtTS_no_space b)]
  simp only [List.getD_cons_succ, List.getD_cons_zero]
  rw [parseTime_fmtTS b hb]

theorem dur_entry (acc : ℚ) (i : Nat) (hi : i < 71999) :
    (entryLines i).foldl durStep acc = max acc (((5 * i + 5 : Nat)) : ℚ) := by
  unfold entryLines
  simp only [List.foldl_cons, List.foldl_nil]
  have hb5 : 5 * i + 5 < 360000 := by omega
  rw [durStep_skip acc (toString (i + 1)) (hasSubStr_arrow_natStr (i + 1))]
  rw [durStep_ts acc (5 * i) (5 * i + 5) hb5]
  rw [durStep_skip _ _ (hasSubStr_arrow_false _ (entryText_no_space i))]
  rw [durStep_skip _ _ hasSubStr_arrow_empty]

theorem dur_phase : ∀ (k a : Nat) (acc : ℚ), 1 ≤ k → a + k ≤ 71999 →
    ((List.range' a k).flatMap entryLines).foldl durStep acc
      = max acc (((5 * (a + k) : Nat)) : ℚ) := by
  intro k
  induction k with
  | zero =>
    intro a acc h _
    exact absurd h (by omega)
  | succ n ih =>
    intro a acc _ hle
    rw [List.range'_succ, List.flatMap_cons, List.foldl_append]
    rw [dur_entry acc a (by omega)]
    by_cases hn : n = 0
    · subst hn
      have h5 : 5 * a + 5 = 5 * (a + 1) := by omega
      simp [h5]
    · rw [ih (a + 1) _ (by omega) (by omega)]
      rw [max_assoc]
      congr 1
      rw [max_eq_right]
      · congr 1
        omega
      · have hc : (5 * a + 5 : Nat) ≤ 5 * (a + 1 + n) := by omega
        exact_mod_cast hc

/-! ### transcript90 as a joined line list -/

theorem emptyDoc_data : emptyDoc.data = [] := rfl

theorem string_join_eq (l : List String) :
    String.join l = l.foldl (fun r t => r ++ t) emptyDoc := rfl

theorem strFoldlAppend : ∀ (m : List String) (acc : String),
    m.foldl (fun r t => r ++ t) acc = acc ++ m.foldl (fun r t => r ++ t) emptyDoc := by
  intro m
  induction m with
  | nil =>
    intro acc
    apply string_data_ext
    simp [String.data_append, emptyDoc_data]
  | cons x xs ih =>
    intro acc
    rw [List.foldl_cons, List.foldl_cons, ih (acc ++ x), ih (emptyDoc ++ x)]
    apply string_data_ext
    simp [String.data_append, emptyDoc_data]

theorem string_join_cons (s : String) (l : List String) :
    String.join (s :: l) = s ++ String.join l := by
  rw [string_join_eq, string_join_eq, List.foldl_cons, strFoldlAppend l (emptyDoc ++ s)]
  apply string_data_ext
  simp [String.data_append, emptyDoc_data]

theorem srtEntry_eq (i : Nat) :
    srtEntry (i + 1) (5 * i) (5 * i + 5) (entryText i) = joinNl (entryLines i) ++ nlStr := by
  unfold srtEntry entryLines
  rw [joinNl_cons _ _ (by simp), joinNl_cons _ _ (by simp), joinNl_cons _ _ (by simp),
    joinNl_singleton]
  apply string_data_ext
  simp only [String.data_append, List.append_assoc]
  rfl

theorem join_entries : ∀ (l : List Nat),
    String.join (l.map (fun i => joinNl (entryLines i) ++ nlStr)) =
      joinNl (l.flatMap entryLines ++ [emptyDoc]) := by
  intro l
  induction l with
  | nil =>
    apply string_data_ext
    rfl
  | cons x xs ih =>
    rw [List.map_cons, string_join_cons, ih, List.flatMap_cons, List.append_assoc]
    rw [joinNl_append (entryLines x) _ (by simp [entryLines]) (by simp)]

theorem transcript90_eq : transcript90 = joinNl transcriptLines := by
  unfold transcript90 transcriptLines
  have hmap : (List.range 1080).map
        (fun i => srtEntry (i + 1) (5 * i) (5 * i + 5) (entryText i))
      = (List.range 1080).map (fun i => joinNl (entryLines i) ++ nlStr) :=
    List.map_congr_left (fun i _ => srtEntry_eq i)
  rw [hmap, join_entries]

theorem pyLines_t90 : pyLines transcript90 = transcriptLines := by
  rw [transcript90_eq]
  apply pyLines_joinNl
  · simp [transcriptLines]
  · intro x hx
    unfold transcriptLines at hx
    rcases List.mem_append.mp hx with h1 | h2
    · obtain ⟨i, _, hmem⟩ := List.mem_flatMap.mp h1
      unfold entryLines at hmem
      simp only [List.mem_cons, List.not_mem_nil, or_false] at hmem
      rcases hmem with rfl | rfl | rfl | rfl
      · intro hnl
        exact absurd (natToString_digits _ _ hnl) (by decide)
      · intro hnl
        rw [String.data_append, String.data_append] at hnl
        rcases List.mem_append.mp hnl with hh | hh
        · rcases List.mem_append.mp hh with h3 | h4
          · exact fmtTS_no_nl _ h3
          · exact absurd h4 (by decide)
        · exact fmtTS_no_nl _ hh
      · exact entryText_no_nl i
      · intro hnl
        exact absurd hnl (by decide)
    · have hx2 : x = emptyDoc := by simpa using h2
      subst hx2
      intro hnl
      exact absurd hnl (by decide)

theorem totalDuration_t90 : totalDuration transcript90 = (5400 : ℚ) := by
  unfold totalDuration
  rw [pyLines_t90]
  unfold transcriptLines
  rw [List.foldl_append, List.range_eq_range']
  rw [dur_phase 1080 0 0 (by omega) (by omega)]
  simp only [List.foldl_cons, List.foldl_nil]
  rw [durStep_skip _ _ hasSubStr_arrow_empty]
  rw [max_eq_right (by positivity)]
  norm_num

theorem genSegs_t90 :
    generateSegments transcript90 =
      [joinNl ((List.range' 0 721).map entryText),
        joinNl ((List.range' 721 359).map entryText)] := by
  have hp1 : ∀ j, 0 ≤ j → j < 0 + 721 →
      ¬(((5 * j : Nat) : ℚ) - (WinState.mk [] [] 0).time > 3600) := by
    intro j _ hj2
    show ¬(((5 * j : Nat) : ℚ) - 0 > 3600)
    rw [sub_zero, gt_iff_lt, not_lt]
    have hc : (5 * j : Nat) ≤ 3600 := by omega
    exact_mod_cast hc
  have step1 : ((List.range' 0 721).flatMap entryLines).foldl windowStep ⟨[], [], 0⟩
      = ⟨[], (List.range' 0 721).map entryText, 0⟩ := by
    rw [phase_fold 721 0 _ (by omega) hp1]
    rfl
  have hgt : ((5 * 721 : Nat) : ℚ)
      - (WinState.mk [] ((List.range' 0 721).map entryText) 0).time > 3600 := by
    show ((5 * 721 : Nat) : ℚ) - 0 > 3600
    rw [sub_zero]
    norm_num
  have hne2 : ¬((WinState.mk [] ((List.range' 0 721).map entryText) 0).cur.isEmpty
      = true) := by
    show ¬(((List.range' 0 721).map entryText).isEmpty = true)
    simp [List.isEmpty_iff, List.map_eq_nil_iff, List.range'_eq_nil]
  have step2 : (entryLines 721).foldl windowStep
        ⟨[], (List.range' 0 721).map entryText, 0⟩
      = ⟨[joinNl ((List.range' 0 721).map entryText)], [entryText 721],
          ((5 * 721 : Nat) : ℚ)⟩ := by
    rw [foldl_entryLines _ 721 (by omega)]
    rw [if_pos hgt, if_neg hne2]
    rfl
  have hp2 : ∀ j, 721 + 1 ≤ j → j < (721 + 1) + 358 →
      ¬(((5 * j : Nat) : ℚ)
        - (WinState.mk [joinNl ((List.range' 0 721).map entryText)] [entryText 721]
            ((5 * 721 : Nat) : ℚ)).time > 3600) := by
    intro j hj1 hj2
    show ¬(((5 * j : Nat) : ℚ) - ((5 * 721 : Nat) : ℚ) > 3600)
    rw [gt_iff_lt, not_lt, sub_le_iff_le_add]
    have hc : (5 * j : Nat) ≤ 3600 + 5 * 721 := by omega
    exact_mod_cast hc
  have step3 : ((List.range' (721 + 1) 358).flatMap entryLines).foldl windowStep
        ⟨[joinNl ((List.range' 0 721).map entryText)], [entryText 721],
          ((5 * 721 : Nat) : ℚ)⟩
      = ⟨[joinNl ((List.range' 0 721).map entryText)],
          [entryText 721] ++ (List.range' (721 + 1) 358).map entryText,
          ((5 * 721 : Nat) : ℚ)⟩ := by
    rw [phase_fold 358 (721 + 1) _ (by omega) hp2]
  have h359 : (359 : Nat) = 358 + 1 := rfl
  have hsplit2 : List.range' 721 359 = 721 :: List.range' (721 + 1) 358 := by
    rw [h359, List.range'_succ]
  have hcur : entryText 721 :: (List.range' (721 + 1) 358).map entryText
      = (List.range' 721 359).map entryText := by
    rw [hsplit2, List.map_cons]
  have hne3 : ¬(((List.range' 721 359).map entryText).isEmpty = true) := by
    simp [List.isEmpty_iff, List.map_eq_nil_iff, List.range'_eq_nil]
  unfold generateSegments
  rw [totalDuration_t90]
  rw [if_neg (by norm_num)]
  simp only [longSegments]
  rw [pyLines_t90]
  unfold transcriptLines
  rw [List.range_eq_range']
  have hsplit : List.range' 0 1080 = List.range' 0 721 ++ List.range' 721 359 := by
    have h := List.range'_append_1 0 721 359
    simpa using h.symm
  rw [hsplit, hsplit2]
  rw [List.flatMap_append, List.flatMap_cons]
  simp only [List.foldl_append]
  rw [step1, step2, step3]
  simp only [List.foldl_cons, List.foldl_nil]
  rw [windowStep_empty]
  simp only [List.singleton_append]
  rw [hcur, if_neg hne3]
  rfl

/-- C7: a 90-minute transcript with one entry every 5 seconds (entries i =
0..1079 covering [5i, 5i+5)) windows into exactly 2 time-windows; the first
holds the text lines of entries 0..720 (all entries starting at or before the
3600 s boundary) and the second those of entries 721..1079, and every entry
whose end time 5i+5 is at most 3600 s has its text line in window 1. -/
theorem claim_C7 :
    generateSegments transcript90 =
      [joinNl ((List.range' 0 721).map entryText),
        joinNl ((List.range' 721 359).map entryText)] ∧
    (generateSegments transcript90).length = 2 ∧
    (∀ i : Nat, 5 * i + 5 ≤ 3600 →
      entryText i ∈ pyLines ((generateSegments transcript90).getD 0 emptyDoc)) := by
  refine ⟨genSegs_t90, ?_, ?_⟩
  · rw [genSegs_t90]
    rfl
  · intro i hi
    rw [genSegs_t90]
    show entryText i ∈ pyLines (joinNl ((List.range' 0 721).map entryText))
    have hlines : pyLines (joinNl ((List.range' 0 721).map entryText))
        = (List.range' 0 721).map entryText := by
      apply pyLines_joinNl
      · simp [List.map_eq_nil_iff, List.range'_eq_nil]
      · intro x hx
        obtain ⟨j, hj, rfl⟩ := List.mem_map.mp hx
        exact entryText_no_nl j
    rw [hlines]
    exact List.mem_map_of_mem entryText (List.mem_range'_1.mpr ⟨by omega, by omega⟩)

/-- Witness for C7 at entry 10 (end time 55 s): its text line lies in the
first window. -/
theorem claim_C7_witness :
    5 * 10 + 5 ≤ 3600 ∧
    entryText 10 ∈ pyLines ((generateSegments transcript90).getD 0 emptyDoc) :=
  ⟨by decide, claim_C7.2.2 10 (by decide)⟩

end MdT
